import Mathlib

/-!
Verification of the gdalwrap raster library (include/gdalwrap/gdal.hpp and
src/merge.cpp) against its natural-language specification.

Modelling conventions:
- C++ double values are embedded as exact rationals.  All arithmetic claims
  are settled over this exact embedding; floating rounding is out of scope.
- std::vector and std::map become List; metadata maps are association lists.
- size_t values are Nat; where the C++ code can wrap (conversions of signed
  or floating values to size_t, sums of size_t), the wrap modulo 2 to the 64
  is written out explicitly.
- Fallible operations return Except.
-/

namespace Gdalwrap

/-- Width of size_t, so 2 to the 64. -/
def usizeMod : ℕ := 2 ^ 64

/-- Largest size_t value, returned by gdal_base::index_pix as the
distinguished out-of-bounds sentinel. -/
def size_max : ℕ := 2 ^ 64 - 1

/-- Conversion of a signed integer to size_t, wrapping modulo 2 to the 64
in two's complement fashion. -/
def to_size_t (z : ℤ) : ℕ := (z % (usizeMod : ℤ)).toNat

/-- Model of std::round: round to nearest integer, halves away from zero. -/
def cround (q : ℚ) : ℤ := if q < 0 then -⌊-q + 1/2⌋ else ⌊q + 1/2⌋

/-- Association-list model of metadata_t, i.e. std::map from string to
string.  Insertion is by mset, which overwrites an existing key in place. -/
abbrev metadata_t := List (String × String)

/-- Lookup with default: model of the helper get in gdal.hpp, which returns
the mapped value of a key, or the default when the key is absent. -/
def mget (m : metadata_t) (k d : String) : String :=
  match m.lookup k with
  | some v => v
  | none => d

/-- Model of the indexed assignment on a std::map: replace the value at an
existing key, otherwise append the new binding. -/
def mset : metadata_t → String → String → metadata_t
  | [], k, v => [(k, v)]
  | (k0, v0) :: rest, k, v =>
    if k0 = k then (k, v) :: rest else (k0, v0) :: mset rest k v

/-- The six geotransform coefficients (transform_t in gdal.hpp):
c0 top-left x, c1 w-e pixel resolution, c2 rotation, c3 top-left y,
c4 rotation, c5 n-s pixel resolution. -/
structure transform_t where
  c0 : ℚ
  c1 : ℚ
  c2 : ℚ
  c3 : ℚ
  c4 : ℚ
  c5 : ℚ
deriving DecidableEq, Repr

/-- The raster dataset.  This flattens the layered C++ classes gdal_base,
gdal_named and gdal_custom of gdal.hpp into one structure, keeping every
field: the affine transform, the grid dimensions, the UTM identity, the
bands with their per-band metadata, the dataset metadata, and the custom
origin of gdal_custom.  The names field is the band-name vector used by the
dataset type that src/merge.cpp manipulates (result.names = files[0].names);
it is carried verbatim and never compared by the dataset equality. -/
structure gdal where
  transform : transform_t
  width : ℕ
  height : ℕ
  utm_zone : ℤ
  utm_north : Bool
  bands : List (List ℚ)
  band_metadata : List metadata_t
  metadata : metadata_t
  names : List String
  custom_x_origin : ℚ
  custom_y_origin : ℚ
  custom_z_origin : ℚ
deriving DecidableEq, Repr

/-- Default-constructed dataset: gdal_base::_init does set_transform(0,0)
and set_utm(0); bands, metadata start empty; the custom origin is zero.
The C++ default constructor leaves width and height uninitialized; they are
modelled as zero (merge overwrites them through set_size before use). -/
def gdal_empty : gdal where
  transform := ⟨0, 1, 0, 0, 0, 1⟩
  width := 0
  height := 0
  utm_zone := 0
  utm_north := true
  bands := []
  band_metadata := []
  metadata := []
  names := []
  custom_x_origin := 0
  custom_y_origin := 0
  custom_z_origin := 0

def gdal.get_width (g : gdal) : ℕ := g.width

def gdal.get_height (g : gdal) : ℕ := g.height

def gdal.get_scale_x (g : gdal) : ℚ := g.transform.c1

def gdal.get_scale_y (g : gdal) : ℚ := g.transform.c5

def gdal.get_utm_pose_x (g : gdal) : ℚ := g.transform.c0

def gdal.get_utm_pose_y (g : gdal) : ℚ := g.transform.c3

/-- gdal_base::set_transform: store position and pixel resolution, zero the
rotation terms. -/
def gdal.set_transform (g : gdal) (pos_x pos_y w h : ℚ) : gdal :=
  { g with transform := ⟨pos_x, w, 0, pos_y, 0, h⟩ }

/-- Model of std::vector::resize(n, d): the first n existing elements are
kept; if the vector grows, the new tail is filled with copies of d. -/
def listResize (l : List α) (n : ℕ) (d : α) : List α :=
  l.take n ++ List.replicate (n - l.length) d

/-- gdal_base::set_size(n, x, y, no_data): record the new dimensions, resize
the band vector and the per-band metadata vector to n entries (new bands
start empty, new metadata maps start empty), then resize every band to
x * y samples, filling the newly created samples with no_data.  Because
std::vector::resize keeps existing elements, samples already present are
preserved, not overwritten. -/
def gdal.set_size (g : gdal) (n x y : ℕ) (no_data : ℚ) : gdal :=
  { g with
    width := x
    height := y
    bands := (listResize g.bands n []).map (fun band => listResize band (x * y) no_data)
    band_metadata := listResize g.band_metadata n [] }

/-- Two-argument gdal_base::set_size(x, y): records the dimensions only and,
per its own comment, does not change the container (unsafe). -/
def gdal.set_size2 (g : gdal) (x y : ℕ) : gdal :=
  { g with width := x, height := y }

/-- gdal_base::copy_meta_only: copy UTM identity, transform and dataset
metadata from another instance. -/
def gdal.copy_meta_only (g copy : gdal) : gdal :=
  { g with
    utm_zone := copy.utm_zone
    utm_north := copy.utm_north
    transform := copy.transform
    metadata := copy.metadata }

/-- gdal_base::copy_meta(copy, width, height): copy the metadata, then
set_size with the band count of the source and the given dimensions
(the default no_data of set_size is zero). -/
def gdal.copy_meta_wh (g copy : gdal) (width height : ℕ) : gdal :=
  (g.copy_meta_only copy).set_size copy.bands.length width height 0

/-- gdal_base::copy_meta(copy, n_raster): copy the metadata, then set_size
with the given band count and the dimensions of the source. -/
def gdal.copy_meta_n (g copy : gdal) (n_raster : ℕ) : gdal :=
  (g.copy_meta_only copy).set_size n_raster copy.width copy.height 0

/-- gdal_base::copy_meta(copy): copy the metadata and take both the band
count and the dimensions from the source. -/
def gdal.copy_meta (g copy : gdal) : gdal :=
  g.copy_meta_wh copy copy.width copy.height

/-- gdal_base::index_pix(x, y) on size_t coordinates: the distinguished
out-of-bounds sentinel when a coordinate reaches the grid bounds (size_t
cannot be negative, so only the upper bounds are checked), otherwise the
row-major linear index, whose size_t computation wraps modulo 2 to 64. -/
def gdal.index_pix (g : gdal) (x y : ℕ) : ℕ :=
  if g.width ≤ x ∨ g.height ≤ y then size_max
  else (x + y * g.width) % usizeMod

/-- gdal_base::index_pix on a fractional point: std::round each coordinate
(half away from zero), convert to size_t, and defer to the integer
index_pix. -/
def gdal.index_pix_pt (g : gdal) (p : ℚ × ℚ) : ℕ :=
  g.index_pix (to_size_t (cround p.1)) (to_size_t (cround p.2))

/-- gdal_base::point_pix2utm. -/
def gdal.point_pix2utm (g : gdal) (x y : ℚ) : ℚ × ℚ :=
  (x * g.get_scale_x + g.get_utm_pose_x, y * g.get_scale_y + g.get_utm_pose_y)

/-- gdal_base::point_utm2pix. -/
def gdal.point_utm2pix (g : gdal) (x y : ℚ) : ℚ × ℚ :=
  ((x - g.get_utm_pose_x) / g.get_scale_x, (y - g.get_utm_pose_y) / g.get_scale_y)

/-- gdal_custom::point_pix2custom: pixel to UTM, then translate by the
negated custom origin. -/
def gdal.point_pix2custom (g : gdal) (x y : ℚ) : ℚ × ℚ :=
  let p := g.point_pix2utm x y
  (p.1 - g.custom_x_origin, p.2 - g.custom_y_origin)

/-- gdal_custom::point_custom2pix: translate by the custom origin, then UTM
to pixel. -/
def gdal.point_custom2pix (g : gdal) (x y : ℚ) : ℚ × ℚ :=
  g.point_utm2pix (x + g.custom_x_origin) (y + g.custom_y_origin)

/-- gdal_named::set_band_name: store the name under the NAME key of the
per-band metadata map of the given band. -/
def gdal.set_band_name (g : gdal) (band_id : ℕ) (name : String) : gdal :=
  { g with band_metadata :=
      g.band_metadata.set band_id (mset (g.band_metadata.getD band_id []) "NAME" name) }

/-- Error kinds of the specification: ShapeMismatch for the merge
validation failure, NameNotFound for a failed band-name lookup, EmptyInput
for merge on an empty tile list (undefined behaviour in the C++, which
reads files[0] unconditionally). -/
inductive gdal_error where
  | ShapeMismatch
  | NameNotFound
  | EmptyInput
deriving DecidableEq, Repr

/-- Scan loop of gdal_named::get_band_id: walk the per-band metadata in
band order keeping a running index. -/
def get_band_id_go (name : String) : List metadata_t → ℕ → Except gdal_error ℕ
  | [], _ => .error .NameNotFound
  | bm :: rest, band_id =>
    if mget bm "NAME" "" = name then .ok band_id else get_band_id_go name rest (band_id + 1)

/-- Intent model of gdal_named::get_band_id.  The C++ body iterates the
per-band metadata maps and compares the query against bm.second, where bm
is the whole std::map of one band; a std::map has no member named second,
so every instantiation of the member is ill-formed and it cannot compile.
This definition follows the documented intent of the member (its doc
comment and gdal_named::set_band_name, which stores the band name under the
NAME key): compare the query against the NAME entry of each band in band
order, returning the first match, or the name-not-found error. -/
def gdal.get_band_id (g : gdal) (name : String) : Except gdal_error ℕ :=
  get_band_id_go name g.band_metadata 0

/-- Dataset equality operator of gdal.hpp: compare dimensions, the two
scales, the two UTM pose offsets, the dataset metadata and the band
contents.  Band metadata, band names, the UTM zone and hemisphere and the
custom origin are not compared. -/
def gdal_eq (lhs rhs : gdal) : Bool :=
  decide (lhs.get_width = rhs.get_width
    ∧ lhs.get_height = rhs.get_height
    ∧ lhs.get_scale_x = rhs.get_scale_x
    ∧ lhs.get_scale_y = rhs.get_scale_y
    ∧ lhs.get_utm_pose_x = rhs.get_utm_pose_x
    ∧ lhs.get_utm_pose_y = rhs.get_utm_pose_y
    ∧ lhs.metadata = rhs.metadata
    ∧ lhs.bands = rhs.bands)

/-- Helper raster2bytes of gdal.hpp: single pass min and max (the fold
models std::minmax_element), an all-zero byte vector of the same length
when the band is flat, otherwise one byte floor(coef * (sample - min)) per
sample with coef = 255 / (max - min).  The C++ dereferences the min and max
iterators, which is undefined on an empty band; the model returns the empty
byte vector there. -/
def raster2bytes (v : List ℚ) : List ℕ :=
  match v with
  | [] => []
  | x :: xs =>
    let mn := xs.foldl min x
    let mx := xs.foldl max x
    if mx - mn = 0 then List.replicate (x :: xs).length 0
    else (x :: xs).map (fun f => (⌊255 / (mx - mn) * (f - mn)⌋).toNat)

/-- Epsilon of std::numeric_limits for double, the tolerance of the merge
validation. -/
def eps : ℚ := 1 / 2 ^ 52

/-- Helper same of src/merge.cpp: absolute difference strictly below the
double epsilon.  merge also feeds the integer width, height through this
comparison after conversion to double; the conversion is exact here. -/
def same (a b : ℚ) : Bool := decide (|a - b| < eps)

/-- One std::copy of the merge inner loop: write the chunk into the
destination starting at the given position.  Out-of-range positions leave
the destination unchanged (List.set is the identity there); the in-bounds
theorems only ever use it within range, matching the defined behaviour of
the C++. -/
def writeChunk : List ℚ → ℕ → List ℚ → List ℚ
  | dst, _, [] => dst
  | dst, pos, c :: cs => writeChunk (dst.set pos c) (pos + 1) cs

/-- Structural engine of the merge row loop, recursing on a fuel counter so
that the definition reduces in the kernel; copyRows below supplies enough
fuel for the loop to run to completion. -/
def copyRowsFuel (w sx : ℕ) : ℕ → List ℚ → List ℚ → ℕ → List ℚ
  | 0, _, dst, _ => dst
  | fuel + 1, src, dst, pos =>
    if w = 0 ∨ src = [] then dst
    else copyRowsFuel w sx fuel (src.drop w) (writeChunk dst pos (src.take w)) (pos + sx)

/-- Row loop of merge: while source samples remain, copy one row of w
samples to the current destination position, advance the source by w and
the destination by the output stride sx.  The C++ loop does not terminate
for w = 0 on a non-empty source; the model returns the destination
unchanged in that corner (never reached by the theorems). -/
def copyRows (w sx : ℕ) (src dst : List ℚ) (pos : ℕ) : List ℚ :=
  copyRowsFuel w sx src.length src dst pos

/-- Validation pass of merge: every file must agree with the first file f0
on both scales, width, height (each compared through same, with the
integer dimensions passing through the exact rational embedding of the
double conversion) and, exactly, on the band count. -/
def merge_check (f0 : gdal) (files : List gdal) : Bool :=
  files.all (fun f =>
    same f0.get_scale_x f.get_scale_x && same f0.get_scale_y f.get_scale_y &&
    same (f0.get_width : ℚ) (f.get_width : ℚ) &&
    same (f0.get_height : ℚ) (f.get_height : ℚ) &&
    (f0.bands.length == f.bands.length))

/-- Running minimum of the UTM pose x over the files, seeded with the pose
of the first file, as the min/max loop of merge computes it. -/
def merge_ulx (f0 : gdal) (files : List gdal) : ℚ :=
  files.foldl (fun m f => min m f.get_utm_pose_x) f0.get_utm_pose_x

/-- Running maximum of the UTM pose x over the files. -/
def merge_max_x (f0 : gdal) (files : List gdal) : ℚ :=
  files.foldl (fun m f => max m f.get_utm_pose_x) f0.get_utm_pose_x

/-- Running minimum of the UTM pose y over the files. -/
def merge_min_y (f0 : gdal) (files : List gdal) : ℚ :=
  files.foldl (fun m f => min m f.get_utm_pose_y) f0.get_utm_pose_y

/-- Running maximum of the UTM pose y over the files; merge uses it as the
upper-left y of the output. -/
def merge_uly (f0 : gdal) (files : List gdal) : ℚ :=
  files.foldl (fun m f => max m f.get_utm_pose_y) f0.get_utm_pose_y

/-- Output width of merge: with ulx the minimum pose x and
lrx = max pose x + scale_x * width, this is floor((lrx - ulx)/scale_x + 0.5)
converted to size_t.  The conversion of a negative double to size_t is
undefined behaviour in C++; the model clamps at zero. -/
def merge_sx (f0 : gdal) (files : List gdal) : ℕ :=
  (⌊(merge_max_x f0 files + f0.get_scale_x * f0.get_width - merge_ulx f0 files) /
      f0.get_scale_x + 1/2⌋).toNat

/-- Output height of merge: with uly the maximum pose y and
lry = min pose y + scale_y * height, this is floor((lry - uly)/scale_y + 0.5)
converted to size_t. -/
def merge_sy (f0 : gdal) (files : List gdal) : ℕ :=
  (⌊(merge_min_y f0 files + f0.get_scale_y * f0.get_height - merge_uly f0 files) /
      f0.get_scale_y + 1/2⌋).toNat

/-- Pixel x offset of one tile into the mosaic:
floor((utm_x - ulx)/scale_x + 0.1), an int in the C++. -/
def merge_xoff (f0 : gdal) (files : List gdal) (f : gdal) : ℤ :=
  ⌊(f.get_utm_pose_x - merge_ulx f0 files) / f0.get_scale_x + 1/10⌋

/-- Pixel y offset of one tile into the mosaic:
floor((utm_y - uly)/scale_y + 0.1). -/
def merge_yoff (f0 : gdal) (files : List gdal) (f : gdal) : ℤ :=
  ⌊(f.get_utm_pose_y - merge_uly f0 files) / f0.get_scale_y + 1/10⌋

/-- Linear start index of one tile in the mosaic, the size_t value
xoff + yoff * sx; the signed operands wrap into size_t modulo 2 to the 64
exactly as the C++ unsigned arithmetic does. -/
def merge_start (f0 : gdal) (files : List gdal) (f : gdal) : ℕ :=
  to_size_t (merge_xoff f0 files f + merge_yoff f0 files f * (merge_sx f0 files : ℤ))

/-- Output container of merge before the copy loop: a default-constructed
dataset that receives copy_meta_only from the first file (the base-class
version: merge is declared over the base dataset class in gdal.hpp line
521), the band names of the first file, the transform with the upper-left
envelope corner and the shared scales, and set_size with the shared band
count, the computed output size and the no_data fill. -/
def merge_base (f0 : gdal) (files : List gdal) (no_data : ℚ) : gdal :=
  (({ gdal_empty.copy_meta_only f0 with names := f0.names }).set_transform
      (merge_ulx f0 files) (merge_uly f0 files) f0.get_scale_x f0.get_scale_y).set_size
    f0.bands.length (merge_sx f0 files) (merge_sy f0 files) no_data

/-- Copy loop body of merge for one tile: band by band, copy the rows of
the tile band into the accumulated output bands starting at the linear
start index of the tile, advancing the destination by the output width sx
per row. -/
def merge_step (f0 : gdal) (files : List gdal) (acc : List (List ℚ)) (f : gdal) :
    List (List ℚ) :=
  acc.mapIdx (fun band dstBand =>
    copyRows f0.get_width (merge_sx f0 files) (f.bands.getD band []) dstBand
      (merge_start f0 files f))

/-- Tile mosaic algorithm of src/merge.cpp: validate every tile against the
first, compute the envelope and the output grid, then copy every tile in
input order.  Doubles are exact rationals throughout. -/
def merge (files : List gdal) (no_data : ℚ) : Except gdal_error gdal :=
  match files with
  | [] => .error .EmptyInput
  | f0 :: _ =>
    if merge_check f0 files then
      .ok { merge_base f0 files no_data with
            bands := files.foldl (merge_step f0 files) (merge_base f0 files no_data).bands }
    else .error .ShapeMismatch

-- Decidable equality on results, used only to evaluate concrete runs.
deriving instance DecidableEq for Except

/-- Shape invariants of the data model: as many per-band metadata maps as
bands, and every band has width * height samples. -/
abbrev shape_ok (g : gdal) : Prop :=
  g.bands.length = g.band_metadata.length ∧
  ∀ b ∈ g.bands, b.length = g.width * g.height

/-- Disagreement of a tile f with the first tile f0 that makes the merge
validation fail: a scale differing by at least the double epsilon, or a
differing integer width, height or band count. -/
abbrev mismatch (f0 f : gdal) : Prop :=
  eps ≤ |f0.get_scale_x - f.get_scale_x| ∨ eps ≤ |f0.get_scale_y - f.get_scale_y| ∨
  f0.get_width ≠ f.get_width ∨ f0.get_height ≠ f.get_height ∨
  f0.bands.length ≠ f.bands.length

/-- Concrete 1 x 1 dataset holding one band with the single sample 7. -/
def ex1 : gdal :=
  { gdal_empty with
    width := 1
    height := 1
    bands := [[7]]
    band_metadata := [[]] }

/-- Concrete dataset with nonzero scales and a custom origin, for the
coordinate round-trip witnesses. -/
def exRT : gdal :=
  { gdal_empty with
    transform := ⟨10, 2, 0, 20, 0, -3⟩
    custom_x_origin := 5
    custom_y_origin := 7 }

/-- Concrete dataset whose three bands are named a, b, x. -/
def gABX : gdal :=
  { gdal_empty with
    width := 1
    height := 1
    bands := [[1], [2], [3]]
    band_metadata := [[(r"NAME", r"a")], [(r"NAME", r"b")], [(r"NAME", r"x")]] }

/-- Concrete dataset whose two bands are named a, b. -/
def gAB : gdal :=
  { gdal_empty with
    width := 1
    height := 1
    bands := [[1], [2]]
    band_metadata := [[(r"NAME", r"a")], [(r"NAME", r"b")]] }

/-- Concrete 2 x 1 tile at UTM pose (0, 0) with scales (1, -1). -/
def wA : gdal :=
  { gdal_empty with
    transform := ⟨0, 1, 0, 0, 0, -1⟩
    width := 2
    height := 1
    bands := [[10, 11]]
    band_metadata := [[]] }

/-- Concrete 2 x 1 tile at UTM pose (1, 0): overlaps wA in one pixel. -/
def wOv : gdal :=
  { gdal_empty with
    transform := ⟨1, 1, 0, 0, 0, -1⟩
    width := 2
    height := 1
    bands := [[20, 21]]
    band_metadata := [[]] }

/-- Concrete 2 x 1 tile at UTM pose (3, 0): disjoint from wA, one
uncovered pixel between them. -/
def wGap : gdal :=
  { gdal_empty with
    transform := ⟨3, 1, 0, 0, 0, -1⟩
    width := 2
    height := 1
    bands := [[20, 21]]
    band_metadata := [[]] }

/-- Concrete 2 x 1 tile whose x scale is 2: shape-mismatched with wA. -/
def wBad : gdal :=
  { gdal_empty with
    transform := ⟨0, 2, 0, 0, 0, -1⟩
    width := 2
    height := 1
    bands := [[1, 2]]
    band_metadata := [[]] }


/-- Rectangle covering: tile f covers mosaic pixel (col, row) when the
pixel lies inside the width x height window at the integer tile offsets
(xoff, yoff) that merge computes for f. -/
abbrev covers (f0 : gdal) (files : List gdal) (f : gdal) (col row : ℕ) : Prop :=
  merge_xoff f0 files f ≤ (col : ℤ) ∧
  (col : ℤ) < merge_xoff f0 files f + f0.get_width ∧
  merge_yoff f0 files f ≤ (row : ℤ) ∧
  (row : ℤ) < merge_yoff f0 files f + f0.get_height

/-- Boolean form of covers, for filtering the tile list. -/
def coversB (f0 : gdal) (files : List gdal) (col row : ℕ) (f : gdal) : Bool :=
  decide (covers f0 files f col row)

/-- Sample of tile f that lands on mosaic pixel (col, row) of one band:
the tile-local linear offset is (col - xoff) + (row - yoff) * width. -/
def tileSample (f0 : gdal) (files : List gdal) (f : gdal) (band col row : ℕ) : ℚ :=
  (f.bands.getD band []).getD
    (((col : ℤ) - merge_xoff f0 files f) +
      ((row : ℤ) - merge_yoff f0 files f) * f0.get_width).toNat 0

/-- Value the merge copy loop leaves at one mosaic pixel of one band: the
sample of the last tile in input order that covers the pixel (tiles are
processed in input order, so a later tile overwrites an earlier one on
overlap), or the no_data fill when no tile covers the pixel. -/
def lastCoverValue (f0 : gdal) (files : List gdal) (nd : ℚ) (band col row : ℕ) : ℚ :=
  match (files.filter (coversB f0 files col row)).getLast? with
  | some f => tileSample f0 files f band col row
  | none => nd

/-! Basic lemmas about the container models. -/

theorem listResize_length (l : List α) (n : ℕ) (d : α) :
    (listResize l n d).length = n := by
  simp [listResize]
  omega

theorem listResize_getElem? (l : List α) (n : ℕ) (d : α) (i : ℕ) (hi : i < n) :
    (listResize l n d)[i]? = some (if i < l.length then l.getD i d else d) := by
  unfold listResize
  by_cases hl : i < l.length
  · rw [if_pos hl, List.getElem?_append_left (by simp [List.length_take]; omega),
      List.getElem?_take_of_lt hi, List.getElem?_eq_getElem hl,
      List.getD_eq_getElem?_getD, List.getElem?_eq_getElem hl]
    rfl
  · rw [if_neg hl, List.getElem?_append_right (by simp [List.length_take]; omega),
      List.getElem?_replicate_of_lt (by simp [List.length_take]; omega)]

theorem getD_irrel (l : List α) (i : ℕ) (h : i < l.length) (d1 d2 : α) :
    l.getD i d1 = l.getD i d2 := by
  rw [List.getD_eq_getElem?_getD, List.getD_eq_getElem?_getD, List.getElem?_eq_getElem h]
  rfl

theorem listResize_getD (l : List α) (n : ℕ) (d x : α) (i : ℕ) (hi : i < n) :
    (listResize l n d).getD i x = if i < l.length then l.getD i d else d := by
  rw [List.getD_eq_getElem?_getD, listResize_getElem? l n d i hi]
  rfl

theorem pix_lt {c r w h : ℕ} (hc : c < w) (hr : r < h) : c + r * w < w * h := by
  have h1 : c + r * w < (r + 1) * w := by
    simp [Nat.add_mul]
    omega
  have h2 : (r + 1) * w ≤ h * w := Nat.mul_le_mul_right w hr
  have h3 : h * w = w * h := Nat.mul_comm h w
  omega

/-! Claim C1: what set_size does to the bands.  The C++ member uses
std::vector::resize, which keeps existing elements, so previous sample
data inside the retained range is preserved, not discarded; only newly
created samples read the fill value. -/

/-- Claim C1, counterexample: on a dataset whose single 1 x 1 band already
holds the sample 7, set_size(1, 1, 1, 0) keeps the old sample, so reading
it returns 7, not the fill value 0 that the claim promises. -/
theorem c1_counterexample :
    ((ex1.set_size 1 1 1 0).bands.getD 0 []).getD 0 0 ≠ 0 := by decide

/-- Claim C1 (amended): after set_size(n, w, h, fill) there are exactly n
bands and n band-metadata maps and every band has w * h samples; a sample
at band i, offset j reads fill exactly when it lies outside the previously
allocated data (band index at least the old band count, or offset at least
the old length of that band); samples inside the old data keep their
previous values.  On a dataset whose bands are all empty, in particular a
fresh one, every sample therefore reads fill. -/
theorem c1_set_size (g : gdal) (n x y : ℕ) (fill : ℚ) :
    (g.set_size n x y fill).bands.length = n ∧
    (g.set_size n x y fill).band_metadata.length = n ∧
    (∀ b ∈ (g.set_size n x y fill).bands, b.length = x * y) ∧
    (∀ i j : ℕ, i < n → j < x * y →
      ((g.set_size n x y fill).bands.getD i []).getD j 0 =
        if i < g.bands.length ∧ j < (g.bands.getD i []).length
        then (g.bands.getD i []).getD j 0
        else fill) := by
  refine ⟨?_, ?_, ?_, ?_⟩
  · simp [gdal.set_size, listResize_length]
  · simp [gdal.set_size, listResize_length]
  · intro b hb
    simp only [gdal.set_size, List.mem_map] at hb
    obtain ⟨a, _, rfl⟩ := hb
    exact listResize_length a (x * y) fill
  · intro i j hi hj
    have hmap : (g.set_size n x y fill).bands.getD i [] =
        listResize (if i < g.bands.length then g.bands.getD i [] else []) (x * y) fill := by
      simp only [gdal.set_size]
      rw [List.getD_eq_getElem?_getD, List.getElem?_map,
        listResize_getElem? g.bands n [] i hi]
      rfl
    rw [hmap, listResize_getD _ _ _ _ _ hj]
    by_cases hl : i < g.bands.length
    · simp only [if_pos hl]
      by_cases hjl : j < (g.bands.getD i []).length
      · rw [if_pos hjl, if_pos ⟨hl, hjl⟩]
        exact getD_irrel _ _ hjl _ _
      · rw [if_neg hjl, if_neg (by tauto)]
    · simp only [if_neg hl, List.length_nil, Nat.not_lt_zero, if_false]
      have : ¬ (i < g.bands.length ∧ j < (g.bands.getD i []).length) := by tauto
      rw [if_neg this]

/-! Claim C9: the shape invariants hold after the four-argument set_size
and after every copy_meta variant, but the two-argument set_size (by its
own comment: does not change the container, unsafe) only records the new
dimensions and can break the band-length invariant. -/

/-- Claim C9, counterexample: grow a fresh dataset to one 2 x 2 band, then
call the two-argument set_size(3, 3).  The recorded grid is 3 x 3 but the
band still has 4 samples, so the invariant fails after this shape-changing
mutation. -/
theorem c9_counterexample :
    ¬ shape_ok ((gdal_empty.set_size 1 2 2 0).set_size2 3 3) := by decide

/-- Claim C9 (amended): the invariants (as many band-metadata maps as
bands, every band of length width * height) hold after the four-argument
set_size with any arguments and after each of the three copy_meta
variants; the two-argument set_size is excluded, as the counterexample
shows. -/
theorem c9_invariants :
    (∀ (g : gdal) (n x y : ℕ) (f : ℚ), shape_ok (g.set_size n x y f)) ∧
    (∀ g c : gdal, shape_ok (g.copy_meta c)) ∧
    (∀ (g c : gdal) (n : ℕ), shape_ok (g.copy_meta_n c n)) ∧
    (∀ (g c : gdal) (x y : ℕ), shape_ok (g.copy_meta_wh c x y)) := by
  have hset : ∀ (g : gdal) (n x y : ℕ) (f : ℚ), shape_ok (g.set_size n x y f) := by
    intro g n x y f
    obtain ⟨h1, h2, h3, _⟩ := c1_set_size g n x y f
    exact ⟨by rw [h1, h2], h3⟩
  exact ⟨hset, fun g c => hset _ _ _ _ _, fun g c n => hset _ _ _ _ _,
    fun g c x y => hset _ _ _ _ _⟩

/-- Claim C9, witness: the invariants after a concrete four-argument
set_size call. -/
theorem c9_witness : shape_ok (ex1.set_size 2 3 4 5) :=
  c9_invariants.1 ex1 2 3 4 5

/-! Claim C10: index_pix on a fractional point rounds half away from zero,
then checks only the upper bounds (the coordinates are unsigned), returns
the distinguished size_max sentinel exactly on out-of-bounds, and the
row-major linear index otherwise. -/

/-- Claim C10: when both rounded coordinates are representable in size_t
(the double to size_t conversion is otherwise undefined behaviour) and the
grid has fewer than 2 to the 64 pixels (so the linear index neither wraps
nor collides with the sentinel), index_pix on a point returns the sentinel
size_max exactly when the rounded column reaches the width or the rounded
row reaches the height, and otherwise the linear index col + row * width
of the rounded coordinates. -/
theorem c10_index_pix (g : gdal) (p : ℚ × ℚ)
    (hx0 : 0 ≤ cround p.1) (hx1 : cround p.1 < (usizeMod : ℤ))
    (hy0 : 0 ≤ cround p.2) (hy1 : cround p.2 < (usizeMod : ℤ))
    (hwh : g.width * g.height < usizeMod) :
    (g.index_pix_pt p = size_max ↔
      (g.width ≤ (cround p.1).toNat ∨ g.height ≤ (cround p.2).toNat)) ∧
    ((cround p.1).toNat < g.width → (cround p.2).toNat < g.height →
      g.index_pix_pt p = (cround p.1).toNat + (cround p.2).toNat * g.width) := by
  have hc : to_size_t (cround p.1) = (cround p.1).toNat := by
    unfold to_size_t
    rw [Int.emod_eq_of_lt hx0 hx1]
  have hr : to_size_t (cround p.2) = (cround p.2).toNat := by
    unfold to_size_t
    rw [Int.emod_eq_of_lt hy0 hy1]
  unfold gdal.index_pix_pt gdal.index_pix
  rw [hc, hr]
  set c := (cround p.1).toNat
  set r := (cround p.2).toNat
  constructor
  · constructor
    · intro hs
      by_contra hcon
      push_neg at hcon
      obtain ⟨hcw, hrh⟩ := hcon
      rw [if_neg (by omega)] at hs
      have hlt : c + r * g.width < g.width * g.height := pix_lt hcw hrh
      rw [Nat.mod_eq_of_lt (by omega)] at hs
      have hM : usizeMod = 18446744073709551616 := by norm_num [usizeMod]
      have hSM : size_max = 18446744073709551615 := by norm_num [size_max]
      omega
    · intro hs
      rw [if_pos (by omega)]
  · intro hcw hrh
    rw [if_neg (by omega)]
    have hlt : c + r * g.width < g.width * g.height := pix_lt hcw hrh
    exact Nat.mod_eq_of_lt (by omega)

-- Claim C10, witness: on a 3 x 2 grid, the point (5/2, 2/5) rounds to
-- column 3, out of bounds, giving the sentinel; the point (3/2, 2/5)
-- rounds to (2, 0), in bounds, giving linear index 2.
unseal Rat.add Rat.mul Rat.inv Rat.sub in
theorem c10_witness :
    (({ gdal_empty with width := 3, height := 2 } : gdal).index_pix_pt (5/2, 2/5) = size_max) ∧
    (({ gdal_empty with width := 3, height := 2 } : gdal).index_pix_pt (3/2, 2/5) = 2) := by
  constructor
  · exact (c10_index_pix { gdal_empty with width := 3, height := 2 } (5/2, 2/5)
      (by decide) (by decide) (by decide) (by decide) (by decide)).1.mpr (by decide)
  · exact ((c10_index_pix { gdal_empty with width := 3, height := 2 } (3/2, 2/5)
      (by decide) (by decide) (by decide) (by decide) (by decide)).2
      (by decide) (by decide)).trans (by decide)

-- Claim C1, witness for the amended statement: growing the 1 x 1 dataset
-- ex1 (whose single band holds one sample) to one 2 x 1 band, the sample
-- at offset 1 lies beyond the old data and reads the fill value 9.
theorem c1_witness : ((ex1.set_size 2 2 1 9).bands.getD 0 []).getD 1 0 = 9 :=
  ((c1_set_size ex1 2 2 1 9).2.2.2 0 1 (by decide) (by decide)).trans (by decide)

/-! Claim C6: the pixel to UTM and pixel to custom coordinate round trips
recover the pixel coordinates exactly over exact arithmetic, for nonzero
scales. -/

/-- Claim C6: for nonzero scales, utm2pix after pix2utm recovers any pixel
coordinate pair exactly, and likewise custom2pix after pix2custom. -/
theorem c6_roundtrip (g : gdal) (hx : g.get_scale_x ≠ 0) (hy : g.get_scale_y ≠ 0)
    (col row : ℚ) :
    g.point_utm2pix (g.point_pix2utm col row).1 (g.point_pix2utm col row).2 = (col, row) ∧
    g.point_custom2pix (g.point_pix2custom col row).1 (g.point_pix2custom col row).2 =
      (col, row) := by
  have h1 : (col * g.get_scale_x + g.get_utm_pose_x - g.get_utm_pose_x) /
      g.get_scale_x = col := by field_simp
  have h2 : (row * g.get_scale_y + g.get_utm_pose_y - g.get_utm_pose_y) /
      g.get_scale_y = row := by field_simp
  have h3 : (col * g.get_scale_x + g.get_utm_pose_x - g.custom_x_origin +
      g.custom_x_origin - g.get_utm_pose_x) / g.get_scale_x = col := by field_simp
  have h4 : (row * g.get_scale_y + g.get_utm_pose_y - g.custom_y_origin +
      g.custom_y_origin - g.get_utm_pose_y) / g.get_scale_y = row := by field_simp
  exact ⟨Prod.ext h1 h2, Prod.ext h3 h4⟩

-- Claim C6, witness: the round trips at the concrete dataset exRT with
-- scales (2, -3) and custom origin (5, 7), at pixel (4, 9).
unseal Rat.add Rat.mul Rat.inv Rat.sub in
theorem c6_witness :
    exRT.point_utm2pix (exRT.point_pix2utm 4 9).1 (exRT.point_pix2utm 4 9).2 = (4, 9) ∧
    exRT.point_custom2pix (exRT.point_pix2custom 4 9).1 (exRT.point_pix2custom 4 9).2 =
      (4, 9) :=
  c6_roundtrip exRT (by decide) (by decide) 4 9

/-! Claim C7: raster2bytes quantizes a band with a linear min-max stretch:
same output length, all zeroes on a flat band, otherwise byte
floor(255 / (max - min) * (sample - min)) per sample, with floor, not
rounding. -/

/-- Running minimum of a fold is a member of the seeded list. -/
theorem foldl_min_mem (x : ℚ) (xs : List ℚ) : xs.foldl min x ∈ x :: xs := by
  induction xs generalizing x with
  | nil => simp
  | cons a l ih =>
    rw [List.foldl_cons]
    rcases List.mem_cons.mp (ih (min x a)) with he | he
    · rcases le_total x a with h1 | h1
      · rw [he, min_eq_left h1]
        exact List.mem_cons_self _ _
      · rw [he, min_eq_right h1]
        exact List.mem_cons_of_mem _ (List.mem_cons_self _ _)
    · exact List.mem_cons_of_mem _ (List.mem_cons_of_mem _ he)

/-- Running minimum of a fold bounds every member of the seeded list. -/
theorem foldl_min_le (x : ℚ) (xs : List ℚ) : ∀ a ∈ x :: xs, xs.foldl min x ≤ a := by
  induction xs generalizing x with
  | nil => simp
  | cons b l ih =>
    intro a ha
    rw [List.foldl_cons]
    simp only [List.mem_cons] at ha
    rcases ha with rfl | rfl | hmem
    · exact (ih (min a b) (min a b) (List.mem_cons_self _ _)).trans (min_le_left _ _)
    · exact (ih (min x a) (min x a) (List.mem_cons_self _ _)).trans (min_le_right _ _)
    · exact ih (min x b) a (List.mem_cons_of_mem _ hmem)

/-- Running maximum of a fold is a member of the seeded list. -/
theorem foldl_max_mem (x : ℚ) (xs : List ℚ) : xs.foldl max x ∈ x :: xs := by
  induction xs generalizing x with
  | nil => simp
  | cons a l ih =>
    rw [List.foldl_cons]
    rcases List.mem_cons.mp (ih (max x a)) with he | he
    · rcases le_total x a with h1 | h1
      · rw [he, max_eq_right h1]
        exact List.mem_cons_of_mem _ (List.mem_cons_self _ _)
      · rw [he, max_eq_left h1]
        exact List.mem_cons_self _ _
    · exact List.mem_cons_of_mem _ (List.mem_cons_of_mem _ he)

/-- Running maximum of a fold dominates every member of the seeded list. -/
theorem foldl_max_ge (x : ℚ) (xs : List ℚ) : ∀ a ∈ x :: xs, a ≤ xs.foldl max x := by
  induction xs generalizing x with
  | nil => simp
  | cons b l ih =>
    intro a ha
    rw [List.foldl_cons]
    simp only [List.mem_cons] at ha
    rcases ha with rfl | rfl | hmem
    · exact (le_max_left a b).trans (ih (max a b) (max a b) (List.mem_cons_self _ _))
    · exact (le_max_right x a).trans (ih (max x a) (max x a) (List.mem_cons_self _ _))
    · exact ih (max x b) a (List.mem_cons_of_mem _ hmem)

/-- Unfolding equation of raster2bytes on a non-empty band. -/
theorem raster2bytes_cons (x : ℚ) (xs : List ℚ) :
    raster2bytes (x :: xs) =
      if xs.foldl max x - xs.foldl min x = 0 then List.replicate (x :: xs).length 0
      else (x :: xs).map
        (fun f => (⌊255 / (xs.foldl max x - xs.foldl min x) * (f - xs.foldl min x)⌋).toNat) :=
  rfl

/-- Claim C7: on a non-empty band written x :: xs, the byte output has the
same length as the band; the folds are the true band minimum and maximum;
on a flat band (max = min) the output is all zero bytes of the same
length; otherwise each output byte is floor(coef * (sample - min)) with
coef = 255 / (max - min), a floor and not a rounding. -/
theorem c7_raster2bytes (x : ℚ) (xs : List ℚ) :
    (raster2bytes (x :: xs)).length = (x :: xs).length ∧
    (xs.foldl min x ∈ x :: xs ∧ ∀ a ∈ x :: xs, xs.foldl min x ≤ a) ∧
    (xs.foldl max x ∈ x :: xs ∧ ∀ a ∈ x :: xs, a ≤ xs.foldl max x) ∧
    (xs.foldl max x = xs.foldl min x →
      raster2bytes (x :: xs) = List.replicate (x :: xs).length 0) ∧
    (xs.foldl max x ≠ xs.foldl min x → ∀ i < (x :: xs).length,
      (raster2bytes (x :: xs)).getD i 0 =
        (⌊255 / (xs.foldl max x - xs.foldl min x) * ((x :: xs).getD i 0 -
          xs.foldl min x)⌋).toNat) := by
  refine ⟨?_, ⟨foldl_min_mem x xs, foldl_min_le x xs⟩,
    ⟨foldl_max_mem x xs, foldl_max_ge x xs⟩, ?_, ?_⟩
  · rw [raster2bytes_cons]
    by_cases hflat : xs.foldl max x - xs.foldl min x = 0
    · simp [hflat]
    · simp [hflat]
  · intro hflat
    rw [raster2bytes_cons]
    simp [sub_eq_zero.mpr hflat]
  · intro hne i hi
    have hsub : ¬ (xs.foldl max x - xs.foldl min x = 0) := sub_ne_zero.mpr hne
    rw [raster2bytes_cons, if_neg hsub]
    rw [List.getD_eq_getElem?_getD, List.getElem?_map,
      List.getElem?_eq_getElem hi]
    rw [List.getD_eq_getElem?_getD, List.getElem?_eq_getElem hi]
    rfl

-- Claim C7, witness: the band 0, 10, 20 quantizes to bytes 0, 127, 255
-- (the coefficient 255 / 20 gives 127.5 at the middle sample, floored to
-- 127), and the theorem instance at that band.
unseal Rat.add Rat.mul Rat.inv Rat.sub in
theorem c7_witness :
    raster2bytes [0, 10, 20] = [0, 127, 255] ∧
    raster2bytes [3, 3, 3] = [0, 0, 0] ∧
    (raster2bytes (0 :: [10, 20])).length = (0 :: [10, 20]).length :=
  ⟨by decide, by decide, (c7_raster2bytes 0 [10, 20]).1⟩

/-! Claim C8: band lookup by name.  The C++ member gdal_named::get_band_id
cannot compile when used: it compares the query against bm.second where bm
is the whole per-band std::map, and std::map has no member second.  The
model follows the documented intent (first band whose NAME metadata entry
matches, else a name-not-found error), and the claim is settled as a code
bug against that intent. -/

/-- Claim C8: on bands named a, b, x the lookup of x returns index 2, and
on bands named a, b it fails with the name-not-found error, per the
modelled intent of get_band_id; the C++ member itself is ill-formed (its
comparison reads a member that std::map does not have), contradicting its
own documentation. -/
theorem c8_get_band_id :
    gABX.get_band_id r"x" = .ok 2 ∧ gAB.get_band_id r"x" = .error .NameNotFound := by
  decide

/-! Claim C4: the merge validation.  The loop in src/merge.cpp compares
every tile against the first through same (absolute difference below the
double epsilon) for the two scales and the two integer dimensions, and
through exact equality for the band count; on integers, the epsilon
comparison coincides with exact equality, since distinct integers differ
by at least one.  A failing tile raises the shape-mismatch error inside
the validation loop, before the output dataset is created. -/

theorem same_iff (a b : ℚ) : same a b = true ↔ |a - b| < eps := by
  simp [same]

theorem nat_same_iff (a b : ℕ) : same (a : ℚ) (b : ℚ) = true ↔ a = b := by
  rw [same_iff]
  constructor
  · intro h
    by_contra hne
    have hz : (a : ℤ) - (b : ℤ) ≠ 0 := sub_ne_zero.mpr (by exact_mod_cast hne)
    have h1 : (1 : ℤ) ≤ |(a : ℤ) - (b : ℤ)| := Int.one_le_abs hz
    have h1q : (1 : ℚ) ≤ |(a : ℚ) - (b : ℚ)| := by
      calc (1 : ℚ) = ((1 : ℤ) : ℚ) := by norm_num
        _ ≤ (|(a : ℤ) - (b : ℤ)| : ℚ) := by exact_mod_cast h1
        _ = |(a : ℚ) - (b : ℚ)| := by push_cast; ring_nf
    have heps : eps < 1 := by norm_num [eps]
    linarith
  · rintro rfl
    simp only [sub_self, abs_zero]
    norm_num [eps]

theorem merge_check_iff (f0 : gdal) (files : List gdal) :
    merge_check f0 files = true ↔ ∀ f ∈ files, ¬ mismatch f0 f := by
  unfold merge_check
  rw [List.all_eq_true]
  refine forall_congr' fun f => imp_congr_right fun _ => ?_
  rw [Bool.and_eq_true, Bool.and_eq_true, Bool.and_eq_true, Bool.and_eq_true]
  rw [same_iff, same_iff, nat_same_iff, nat_same_iff, beq_iff_eq]
  unfold mismatch
  push_neg
  constructor
  · rintro ⟨⟨⟨⟨h1, h2⟩, h3⟩, h4⟩, h5⟩
    exact ⟨h1, h2, h3, h4, h5⟩
  · rintro ⟨h1, h2, h3, h4, h5⟩
    exact ⟨⟨⟨⟨h1, h2⟩, h3⟩, h4⟩, h5⟩

theorem merge_eq_ok (f0 : gdal) (rest : List gdal) (nd : ℚ) (res : gdal)
    (hok : merge (f0 :: rest) nd = .ok res) :
    merge_check f0 (f0 :: rest) = true ∧
    res = { merge_base f0 (f0 :: rest) nd with
            bands := (f0 :: rest).foldl (merge_step f0 (f0 :: rest))
              (merge_base f0 (f0 :: rest) nd).bands } := by
  by_cases hc : merge_check f0 (f0 :: rest) = true
  · refine ⟨hc, ?_⟩
    have h := hok
    simp only [merge, hc, if_true] at h
    exact (Except.ok.injEq _ _).mp h.symm
  · exfalso
    simp only [merge, hc, if_false, Bool.false_eq_true, reduceIte] at hok
    exact absurd hok (by simp)

/-- Claim C4: merge on a non-empty tile list fails with the shape-mismatch
error exactly when some tile disagrees with the first on a scale by at
least the double epsilon, or on the integer width, height or band count;
and when no tile disagrees, merge succeeds with a result (the error is
raised before any output exists, and a successful run is the only other
outcome). -/
theorem c4_validation (f0 : gdal) (rest : List gdal) (nd : ℚ) :
    (merge (f0 :: rest) nd = .error .ShapeMismatch ↔ ∃ f ∈ f0 :: rest, mismatch f0 f) ∧
    ((∀ f ∈ f0 :: rest, ¬ mismatch f0 f) → ∃ res, merge (f0 :: rest) nd = .ok res) := by
  by_cases hc : merge_check f0 (f0 :: rest) = true
  · have hok : merge (f0 :: rest) nd = .ok { merge_base f0 (f0 :: rest) nd with
        bands := (f0 :: rest).foldl (merge_step f0 (f0 :: rest))
          (merge_base f0 (f0 :: rest) nd).bands } := by
      simp only [merge, hc, if_true]
    refine ⟨⟨fun h => ?_, fun h => ?_⟩, fun _ => ⟨_, hok⟩⟩
    · rw [hok] at h
      exact absurd h (by simp)
    · obtain ⟨f, hf, hm⟩ := h
      exact absurd hm ((merge_check_iff f0 (f0 :: rest)).mp hc f hf)
  · have herr : merge (f0 :: rest) nd = .error .ShapeMismatch := by
      simp only [merge, hc, if_false, Bool.false_eq_true, reduceIte]
    refine ⟨⟨fun _ => ?_, fun _ => herr⟩, fun hall => ?_⟩
    · have hnall : ¬ ∀ f ∈ f0 :: rest, ¬ mismatch f0 f := fun hall =>
        hc ((merge_check_iff f0 (f0 :: rest)).mpr hall)
      push_neg at hnall
      obtain ⟨f, hf, hm⟩ := hnall
      exact ⟨f, hf, hm⟩
    · exact absurd ((merge_check_iff f0 (f0 :: rest)).mpr hall) hc

-- Claim C4, witness: wBad differs from wA in scale_x (2 versus 1), so the
-- merge of the pair fails with the shape-mismatch error.
unseal Rat.add Rat.mul Rat.inv Rat.sub in
theorem c4_witness : merge [wA, wBad] 0 = .error .ShapeMismatch :=
  (c4_validation wA [wBad] 0).1.mpr ⟨wBad, by decide, by decide⟩

/-! Claim C2: with the validation passed, the output transform origin is
(min over tiles of pose x, max over tiles of pose y), the output scales
are the first tile shared scales, and the output grid size follows the
floor(ratio + 0.5) formulas of the specification, for either sign of
scale_y. -/

theorem merge_ulx_eq (f0 : gdal) (rest : List gdal) :
    merge_ulx f0 (f0 :: rest) =
      (rest.map gdal.get_utm_pose_x).foldl min f0.get_utm_pose_x := by
  unfold merge_ulx
  rw [List.foldl_cons, min_self, List.foldl_map]

theorem merge_max_x_eq (f0 : gdal) (rest : List gdal) :
    merge_max_x f0 (f0 :: rest) =
      (rest.map gdal.get_utm_pose_x).foldl max f0.get_utm_pose_x := by
  unfold merge_max_x
  rw [List.foldl_cons, max_self, List.foldl_map]

theorem merge_min_y_eq (f0 : gdal) (rest : List gdal) :
    merge_min_y f0 (f0 :: rest) =
      (rest.map gdal.get_utm_pose_y).foldl min f0.get_utm_pose_y := by
  unfold merge_min_y
  rw [List.foldl_cons, min_self, List.foldl_map]

theorem merge_uly_eq (f0 : gdal) (rest : List gdal) :
    merge_uly f0 (f0 :: rest) =
      (rest.map gdal.get_utm_pose_y).foldl max f0.get_utm_pose_y := by
  unfold merge_uly
  rw [List.foldl_cons, max_self, List.foldl_map]

/-- The running minimum merge_ulx is the least pose x over the tiles. -/
theorem merge_ulx_least (f0 : gdal) (rest : List gdal) :
    merge_ulx f0 (f0 :: rest) ∈ (f0 :: rest).map gdal.get_utm_pose_x ∧
    ∀ f ∈ f0 :: rest, merge_ulx f0 (f0 :: rest) ≤ f.get_utm_pose_x := by
  rw [merge_ulx_eq]
  constructor
  · simpa using foldl_min_mem f0.get_utm_pose_x (rest.map gdal.get_utm_pose_x)
  · intro f hf
    apply foldl_min_le f0.get_utm_pose_x (rest.map gdal.get_utm_pose_x)
    simpa using List.mem_map_of_mem gdal.get_utm_pose_x hf

/-- The running maximum merge_max_x is the greatest pose x over the tiles. -/
theorem merge_max_x_greatest (f0 : gdal) (rest : List gdal) :
    merge_max_x f0 (f0 :: rest) ∈ (f0 :: rest).map gdal.get_utm_pose_x ∧
    ∀ f ∈ f0 :: rest, f.get_utm_pose_x ≤ merge_max_x f0 (f0 :: rest) := by
  rw [merge_max_x_eq]
  constructor
  · simpa using foldl_max_mem f0.get_utm_pose_x (rest.map gdal.get_utm_pose_x)
  · intro f hf
    apply foldl_max_ge f0.get_utm_pose_x (rest.map gdal.get_utm_pose_x)
    simpa using List.mem_map_of_mem gdal.get_utm_pose_x hf

/-- The running minimum merge_min_y is the least pose y over the tiles. -/
theorem merge_min_y_least (f0 : gdal) (rest : List gdal) :
    merge_min_y f0 (f0 :: rest) ∈ (f0 :: rest).map gdal.get_utm_pose_y ∧
    ∀ f ∈ f0 :: rest, merge_min_y f0 (f0 :: rest) ≤ f.get_utm_pose_y := by
  rw [merge_min_y_eq]
  constructor
  · simpa using foldl_min_mem f0.get_utm_pose_y (rest.map gdal.get_utm_pose_y)
  · intro f hf
    apply foldl_min_le f0.get_utm_pose_y (rest.map gdal.get_utm_pose_y)
    simpa using List.mem_map_of_mem gdal.get_utm_pose_y hf

/-- The running maximum merge_uly is the greatest pose y over the tiles. -/
theorem merge_uly_greatest (f0 : gdal) (rest : List gdal) :
    merge_uly f0 (f0 :: rest) ∈ (f0 :: rest).map gdal.get_utm_pose_y ∧
    ∀ f ∈ f0 :: rest, f.get_utm_pose_y ≤ merge_uly f0 (f0 :: rest) := by
  rw [merge_uly_eq]
  constructor
  · simpa using foldl_max_mem f0.get_utm_pose_y (rest.map gdal.get_utm_pose_y)
  · intro f hf
    apply foldl_max_ge f0.get_utm_pose_y (rest.map gdal.get_utm_pose_y)
    simpa using List.mem_map_of_mem gdal.get_utm_pose_y hf

/-- Field values of the output container before the copy loop. -/
theorem merge_base_fields (f0 : gdal) (files : List gdal) (nd : ℚ) :
    (merge_base f0 files nd).width = merge_sx f0 files ∧
    (merge_base f0 files nd).height = merge_sy f0 files ∧
    (merge_base f0 files nd).get_scale_x = f0.get_scale_x ∧
    (merge_base f0 files nd).get_scale_y = f0.get_scale_y ∧
    (merge_base f0 files nd).get_utm_pose_x = merge_ulx f0 files ∧
    (merge_base f0 files nd).get_utm_pose_y = merge_uly f0 files ∧
    (merge_base f0 files nd).metadata = f0.metadata ∧
    (merge_base f0 files nd).bands =
      List.replicate f0.bands.length
        (List.replicate (merge_sx f0 files * merge_sy f0 files) nd) := by
  refine ⟨rfl, rfl, rfl, rfl, rfl, rfl, rfl, ?_⟩
  show ((listResize ([] : List (List ℚ)) f0.bands.length []).map
      (fun band => listResize band (merge_sx f0 files * merge_sy f0 files) nd)) = _
  simp [listResize, List.map_replicate]

/-- Claim C2: for an accepted non-empty tile list, the output transform
origin is the least pose x and the greatest pose y over the tiles (both
certified extremal over the pose list), the output scales are the shared
scales of the first tile, and the output grid size matches the
floor(ratio + 0.5) formulas of the specification (stated through the
size_t conversion of the code, and, whenever the floor is non-negative,
exactly as the integer floor of the claim); nothing requires a sign of
scale_y, so a negative north-up scale_y is covered. -/
theorem c2_envelope (f0 : gdal) (rest : List gdal) (nd : ℚ) (res : gdal)
    (hok : merge (f0 :: rest) nd = .ok res) :
    (res.get_utm_pose_x ∈ (f0 :: rest).map gdal.get_utm_pose_x ∧
      ∀ f ∈ f0 :: rest, res.get_utm_pose_x ≤ f.get_utm_pose_x) ∧
    (res.get_utm_pose_y ∈ (f0 :: rest).map gdal.get_utm_pose_y ∧
      ∀ f ∈ f0 :: rest, f.get_utm_pose_y ≤ res.get_utm_pose_y) ∧
    res.get_scale_x = f0.get_scale_x ∧
    res.get_scale_y = f0.get_scale_y ∧
    (merge_max_x f0 (f0 :: rest) ∈ (f0 :: rest).map gdal.get_utm_pose_x ∧
      ∀ f ∈ f0 :: rest, f.get_utm_pose_x ≤ merge_max_x f0 (f0 :: rest)) ∧
    (merge_min_y f0 (f0 :: rest) ∈ (f0 :: rest).map gdal.get_utm_pose_y ∧
      ∀ f ∈ f0 :: rest, merge_min_y f0 (f0 :: rest) ≤ f.get_utm_pose_y) ∧
    res.width = (⌊(merge_max_x f0 (f0 :: rest) + f0.get_scale_x * f0.get_width -
        res.get_utm_pose_x) / f0.get_scale_x + 1/2⌋).toNat ∧
    res.height = (⌊(merge_min_y f0 (f0 :: rest) + f0.get_scale_y * f0.get_height -
        res.get_utm_pose_y) / f0.get_scale_y + 1/2⌋).toNat ∧
    (∀ z : ℤ, z = ⌊(merge_max_x f0 (f0 :: rest) + f0.get_scale_x * f0.get_width -
        res.get_utm_pose_x) / f0.get_scale_x + 1/2⌋ → 0 ≤ z → (res.width : ℤ) = z) ∧
    (∀ z : ℤ, z = ⌊(merge_min_y f0 (f0 :: rest) + f0.get_scale_y * f0.get_height -
        res.get_utm_pose_y) / f0.get_scale_y + 1/2⌋ → 0 ≤ z → (res.height : ℤ) = z) := by
  obtain ⟨hc, hres⟩ := merge_eq_ok f0 rest nd res hok
  subst hres
  have hb := merge_base_fields f0 (f0 :: rest) nd
  have hpx : ({ merge_base f0 (f0 :: rest) nd with
      bands := (f0 :: rest).foldl (merge_step f0 (f0 :: rest))
        (merge_base f0 (f0 :: rest) nd).bands } : gdal).get_utm_pose_x =
      merge_ulx f0 (f0 :: rest) := hb.2.2.2.2.1
  have hpy : ({ merge_base f0 (f0 :: rest) nd with
      bands := (f0 :: rest).foldl (merge_step f0 (f0 :: rest))
        (merge_base f0 (f0 :: rest) nd).bands } : gdal).get_utm_pose_y =
      merge_uly f0 (f0 :: rest) := hb.2.2.2.2.2.1
  rw [hpx, hpy]
  refine ⟨merge_ulx_least f0 rest, merge_uly_greatest f0 rest, hb.2.2.1, hb.2.2.2.1,
    merge_max_x_greatest f0 rest, merge_min_y_least f0 rest, hb.1, hb.2.1, ?_, ?_⟩
  · intro z hz h0
    rw [hb.1, hz]
    unfold merge_sx
    rw [hz] at h0
    omega
  · intro z hz h0
    rw [hb.2.1, hz]
    unfold merge_sy
    rw [hz] at h0
    omega

-- Claim C2, witness: merging wA at pose (0, 0) and wGap at pose (3, 0),
-- both 2 x 1 with scales (1, -1) (a negative north-up scale_y), gives a
-- 5 x 1 mosaic: the theorem formulas evaluate to width 5 and height 1.
unseal Rat.add Rat.mul Rat.inv Rat.sub in
theorem c2_witness :
    ((merge [wA, wGap] 5).toOption.getD gdal_empty).width = 5 ∧
    ((merge [wA, wGap] 5).toOption.getD gdal_empty).height = 1 := by
  have hok : merge [wA, wGap] 5 = .ok ((merge [wA, wGap] 5).toOption.getD gdal_empty) := by
    decide
  have h := c2_envelope wA [wGap] 5 ((merge [wA, wGap] 5).toOption.getD gdal_empty) hok
  exact ⟨h.2.2.2.2.2.2.1.trans (by decide), h.2.2.2.2.2.2.2.1.trans (by decide)⟩

/-! Copy machinery of merge: characterization of writeChunk (one std::copy)
and copyRows (the per-band row loop) at the level of single positions. -/

theorem writeChunk_length (chunk : List ℚ) : ∀ (dst : List ℚ) (pos : ℕ),
    (writeChunk dst pos chunk).length = dst.length := by
  induction chunk with
  | nil => intro dst pos; rfl
  | cons c cs ih =>
    intro dst pos
    show (writeChunk (dst.set pos c) (pos + 1) cs).length = dst.length
    rw [ih, List.length_set]

theorem writeChunk_getElem? (chunk : List ℚ) : ∀ (dst : List ℚ) (pos k : ℕ),
    (writeChunk dst pos chunk)[k]? =
      if pos ≤ k ∧ k < pos + chunk.length ∧ k < dst.length
      then chunk[k - pos]? else dst[k]? := by
  induction chunk with
  | nil =>
    intro dst pos k
    show dst[k]? = _
    rw [if_neg (by simp only [List.length_nil, Nat.add_zero]; omega)]
  | cons c cs ih =>
    intro dst pos k
    show (writeChunk (dst.set pos c) (pos + 1) cs)[k]? = _
    rw [ih (dst.set pos c) (pos + 1) k, List.length_set]
    by_cases h1 : k = pos
    · subst h1
      by_cases h2 : k < dst.length
      · rw [if_neg (by omega), if_pos ⟨le_refl k, by simp, h2⟩,
          List.getElem?_set_self h2, Nat.sub_self, List.getElem?_cons_zero]
      · rw [if_neg (by omega), if_neg (by simp only [List.length_cons]; omega),
          List.set_eq_of_length_le (by omega)]
    · by_cases h3 : pos + 1 ≤ k ∧ k < pos + 1 + cs.length ∧ k < dst.length
      · rw [if_pos h3, if_pos (by simp only [List.length_cons]; omega)]
        have hk : k - pos = (k - (pos + 1)) + 1 := by omega
        rw [hk, List.getElem?_cons_succ]
      · rw [if_neg h3, if_neg (by simp only [List.length_cons]; omega),
          List.getElem?_set_ne (fun he => h1 he.symm)]

theorem copyRowsFuel_congr (w sx : ℕ) : ∀ (f1 f2 : ℕ) (src dst : List ℚ) (pos : ℕ),
    src.length ≤ f1 → src.length ≤ f2 →
    copyRowsFuel w sx f1 src dst pos = copyRowsFuel w sx f2 src dst pos := by
  intro f1
  induction f1 with
  | zero =>
    intro f2 src dst pos h1 h2
    have hsrc : src = [] := List.length_eq_zero.mp (by omega)
    subst hsrc
    cases f2 with
    | zero => rfl
    | succ f2 => simp [copyRowsFuel]
  | succ f1 ih =>
    intro f2 src dst pos h1 h2
    cases f2 with
    | zero =>
      have hsrc : src = [] := List.length_eq_zero.mp (by omega)
      subst hsrc
      simp [copyRowsFuel]
    | succ f2 =>
      show (if w = 0 ∨ src = [] then dst else _) = (if w = 0 ∨ src = [] then dst else _)
      by_cases hc : w = 0 ∨ src = []
      · rw [if_pos hc, if_pos hc]
      · rw [if_neg hc, if_neg hc]
        push_neg at hc
        have hlen : 0 < src.length := List.length_pos.mpr hc.2
        have hw : 0 < w := Nat.pos_of_ne_zero hc.1
        exact ih f2 (src.drop w) (writeChunk dst pos (src.take w)) (pos + sx)
          (by simp only [List.length_drop]; omega) (by simp only [List.length_drop]; omega)

/-- One-step unfolding of copyRows, matching one iteration of the C++ row
loop. -/
theorem copyRows_eq (w sx : ℕ) (src dst : List ℚ) (pos : ℕ) :
    copyRows w sx src dst pos =
      if w = 0 ∨ src = [] then dst
      else copyRows w sx (src.drop w) (writeChunk dst pos (src.take w)) (pos + sx) := by
  by_cases hc : w = 0 ∨ src = []
  · rw [if_pos hc]
    rcases List.eq_nil_or_concat src with hsrc | _
    · subst hsrc
      rfl
    · cases hsrc2 : src with
      | nil => subst hsrc2; rfl
      | cons a l =>
        have hw : w = 0 := by
          rcases hc with h | h
          · exact h
          · rw [hsrc2] at h; exact absurd h (by simp)
        subst hsrc2
        show copyRowsFuel w sx (a :: l).length (a :: l) dst pos = dst
        rw [show (a :: l).length = l.length + 1 from rfl]
        show (if w = 0 ∨ (a :: l) = [] then dst else _) = dst
        rw [if_pos (Or.inl hw)]
  · rw [if_neg hc]
    push_neg at hc
    have hlen : 0 < src.length := List.length_pos.mpr hc.2
    have hw : 0 < w := Nat.pos_of_ne_zero hc.1
    obtain ⟨m, hm⟩ : ∃ m, src.length = m + 1 := ⟨src.length - 1, by omega⟩
    show copyRowsFuel w sx src.length src dst pos = _
    rw [hm]
    show (if w = 0 ∨ src = [] then dst else _) = _
    rw [if_neg (by push_neg; exact hc)]
    exact copyRowsFuel_congr w sx m (src.drop w).length (src.drop w)
      (writeChunk dst pos (src.take w)) (pos + sx)
      (by simp only [List.length_drop]; omega) le_rfl

theorem copyRows_length (w sx : ℕ) : ∀ (h : ℕ) (src dst : List ℚ) (pos : ℕ),
    src.length = w * h → (copyRows w sx src dst pos).length = dst.length := by
  intro h
  induction h with
  | zero =>
    intro src dst pos hsrc
    have : src = [] := List.length_eq_zero.mp (by omega)
    subst this
    rw [copyRows_eq, if_pos (Or.inr rfl)]
  | succ n ih =>
    intro src dst pos hsrc
    by_cases hw : w = 0
    · rw [copyRows_eq, if_pos (Or.inl hw)]
    · have hlen : 0 < src.length := by
        rw [hsrc]
        exact Nat.mul_pos (Nat.pos_of_ne_zero hw) (Nat.succ_pos n)
      rw [copyRows_eq, if_neg (by push_neg; exact ⟨hw, by intro he; rw [he] at hlen; simp at hlen⟩)]
      rw [ih (src.drop w) (writeChunk dst pos (src.take w)) (pos + sx)
        (by simp only [List.length_drop]; rw [hsrc]; ring_nf; omega)]
      exact writeChunk_length (src.take w) dst pos

/-- Row window: with the tile row width w fitting in the output stride
(x0 + w at most sx) and a column below sx, the linear index col + row * sx
falls in the window of w cells starting at x0 + y0 * sx exactly for the
row y0 and the columns x0 to x0 + w - 1. -/
theorem row_index_window {sx x0 w col row y0 : ℕ} (hxw : x0 + w ≤ sx) (hcol : col < sx) :
    (x0 + y0 * sx ≤ col + row * sx ∧ col + row * sx < x0 + y0 * sx + w) ↔
    (row = y0 ∧ x0 ≤ col ∧ col < x0 + w) := by
  constructor
  · rintro ⟨h1, h2⟩
    rcases lt_trichotomy row y0 with hlt | heq | hgt
    · exfalso
      have hstep : row * sx + sx ≤ y0 * sx := by
        have hs := Nat.succ_le_of_lt hlt
        calc row * sx + sx = (row + 1) * sx := by ring
          _ ≤ y0 * sx := Nat.mul_le_mul_right sx hs
      omega
    · subst heq
      omega
    · exfalso
      have hstep : y0 * sx + sx ≤ row * sx := by
        have hs := Nat.succ_le_of_lt hgt
        calc y0 * sx + sx = (y0 + 1) * sx := by ring
          _ ≤ row * sx := Nat.mul_le_mul_right sx hs
      omega
  · rintro ⟨heq, h1, h2⟩
    subst heq
    omega

/-- Pixel-level characterization of copyRows: starting at linear position
x0 + y0 * sx in a destination of sx * sy cells, with a source of w * h
samples, row width w with x0 + w at most sx, and y0 + h at most sy, the
value at pixel (col, row) is the tile sample at
(col - x0) + (row - y0) * w inside the rectangle of the tile, and the old
destination value outside it. -/
theorem copyRows_pixel (w sx : ℕ) :
    ∀ (h : ℕ) (src dst : List ℚ) (x0 y0 sy col row : ℕ),
    src.length = w * h → dst.length = sx * sy →
    x0 + w ≤ sx → y0 + h ≤ sy → col < sx → row < sy →
    (copyRows w sx src dst (x0 + y0 * sx))[col + row * sx]? =
      (if x0 ≤ col ∧ col < x0 + w ∧ y0 ≤ row ∧ row < y0 + h
       then src[(col - x0) + (row - y0) * w]? else dst[col + row * sx]?) := by
  intro h
  induction h with
  | zero =>
    intro src dst x0 y0 sy col row hsrc hdst hxw hyh hcol hrow
    have hnil : src = [] := List.length_eq_zero.mp (by omega)
    subst hnil
    rw [copyRows_eq, if_pos (Or.inr rfl), if_neg (by omega)]
  | succ n ih =>
    intro src dst x0 y0 sy col row hsrc hdst hxw hyh hcol hrow
    by_cases hw : w = 0
    · rw [copyRows_eq, if_pos (Or.inl hw), if_neg (by omega)]
    · have hwpos : 0 < w := Nat.pos_of_ne_zero hw
      have hlen : 0 < src.length := by
        rw [hsrc]
        exact Nat.mul_pos hwpos (Nat.succ_pos n)
      have hnn : src ≠ [] := by
        intro he
        rw [he] at hlen
        simp at hlen
      rw [copyRows_eq, if_neg (by push_neg; exact ⟨hw, hnn⟩)]
      have hpos : x0 + y0 * sx + sx = x0 + (y0 + 1) * sx := by ring
      rw [hpos]
      rw [ih (src.drop w) (writeChunk dst (x0 + y0 * sx) (src.take w)) x0 (y0 + 1) sy col row
        (by simp only [List.length_drop]; rw [hsrc]; ring_nf; omega)
        ((writeChunk_length (src.take w) dst (x0 + y0 * sx)).trans hdst)
        hxw (by omega) hcol hrow]
      have htake : (src.take w).length = w := by
        rw [List.length_take]
        rw [hsrc]
        have : w ≤ w * (n + 1) := Nat.le_mul_of_pos_right w (Nat.succ_pos n)
        omega
      by_cases hcl : x0 ≤ col ∧ col < x0 + w ∧ y0 ≤ row ∧ row < y0 + (n + 1)
      · rw [if_pos hcl]
        by_cases hr0 : row = y0
        · subst hr0
          rw [if_neg (by omega)]
          rw [writeChunk_getElem?, htake]
          have hwin : x0 + row * sx ≤ col + row * sx ∧
              col + row * sx < x0 + row * sx + w :=
            (row_index_window hxw hcol).mpr ⟨rfl, hcl.1, hcl.2.1⟩
          have hk : col + row * sx < dst.length := by
            rw [hdst]
            exact pix_lt hcol hrow
          rw [if_pos ⟨hwin.1, hwin.2, hk⟩]
          have hidx : col + row * sx - (x0 + row * sx) = col - x0 := by
            omega
          rw [hidx, List.getElem?_take_of_lt (by omega), Nat.sub_self]
          rw [show (col - x0) + 0 * w = col - x0 by ring]
        · rw [if_pos (by omega)]
          rw [List.getElem?_drop]
          congr 1
          have hry : row - y0 = (row - (y0 + 1)) + 1 := by omega
          rw [hry, Nat.add_mul, one_mul]
          ring
      · rw [if_neg hcl, if_neg (by omega)]
        rw [writeChunk_getElem?, htake]
        rw [if_neg ?hcond]
        case hcond =>
          intro hco
          have hwin := (row_index_window hxw hcol).mp ⟨hco.1, hco.2.1⟩
          exact hcl ⟨hwin.2.1, hwin.2.2, by omega, by omega⟩

/-! Claim C5: merging a single tile reproduces the tile under the dataset
equality of gdal.hpp (which compares dimensions, scales, pose, dataset
metadata and band contents, but not band metadata or names). -/

theorem same_self (a : ℚ) : same a a = true := by
  rw [same_iff]
  simp only [sub_self, abs_zero]
  norm_num [eps]

theorem merge_check_refl (t : gdal) : merge_check t [t] = true := by
  unfold merge_check
  simp [same_self]

/-- Values the merge computation takes on a single tile with nonzero
scales: the envelope collapses to the tile pose, the output grid is the
tile grid, and the copy offset is zero. -/
theorem merge_single_vals (t : gdal) (hsx : t.get_scale_x ≠ 0) (hsy : t.get_scale_y ≠ 0) :
    merge_ulx t [t] = t.get_utm_pose_x ∧ merge_uly t [t] = t.get_utm_pose_y ∧
    merge_sx t [t] = t.get_width ∧ merge_sy t [t] = t.get_height ∧
    merge_start t [t] t = 0 := by
  have hulx : merge_ulx t [t] = t.get_utm_pose_x := by simp [merge_ulx]
  have huly : merge_uly t [t] = t.get_utm_pose_y := by simp [merge_uly]
  have hmaxx : merge_max_x t [t] = t.get_utm_pose_x := by simp [merge_max_x]
  have hminy : merge_min_y t [t] = t.get_utm_pose_y := by simp [merge_min_y]
  have hfloor : ∀ n : ℕ, ⌊(n : ℚ) + 1/2⌋ = n := by
    intro n
    rw [show ((n : ℕ) : ℚ) = ((n : ℤ) : ℚ) by push_cast; ring]
    rw [Int.floor_int_add]
    norm_num
  have hsx2 : merge_sx t [t] = t.get_width := by
    unfold merge_sx
    rw [hmaxx, hulx]
    have harg : (t.get_utm_pose_x + t.get_scale_x * t.get_width - t.get_utm_pose_x) /
        t.get_scale_x = (t.get_width : ℚ) := by
      field_simp
    rw [harg, hfloor]
    simp
  have hsy2 : merge_sy t [t] = t.get_height := by
    unfold merge_sy
    rw [hminy, huly]
    have harg : (t.get_utm_pose_y + t.get_scale_y * t.get_height - t.get_utm_pose_y) /
        t.get_scale_y = (t.get_height : ℚ) := by
      field_simp
    rw [harg, hfloor]
    simp
  have hstart : merge_start t [t] t = 0 := by
    unfold merge_start merge_xoff merge_yoff
    rw [hulx, huly]
    simp only [sub_self, zero_div, zero_add]
    rw [show ⌊(1/10 : ℚ)⌋ = 0 by norm_num]
    simp [to_size_t]
  exact ⟨hulx, huly, hsx2, hsy2, hstart⟩

/-- A full-width copy starting at position zero with stride equal to the
row width reproduces the source band. -/
theorem copyRows_full (w h : ℕ) (src dst : List ℚ) (hsrc : src.length = w * h)
    (hdst : dst.length = w * h) : copyRows w w src dst 0 = src := by
  by_cases hw : w = 0
  · subst hw
    have hs : src = [] := List.length_eq_zero.mp (by omega)
    have hd : dst = [] := List.length_eq_zero.mp (by omega)
    subst hs
    subst hd
    rw [copyRows_eq]
    simp
  · apply List.ext_getElem?
    intro k
    have hlen : (copyRows w w src dst 0).length = w * h := by
      rw [copyRows_length w w h src dst 0 hsrc, hdst]
    by_cases hk : k < w * h
    · have hwpos : 0 < w := Nat.pos_of_ne_zero hw
      have hcol : k % w < w := Nat.mod_lt k hwpos
      have hrow : k / w < h := by
        rw [Nat.div_lt_iff_lt_mul hwpos]
        calc k < w * h := hk
          _ = h * w := Nat.mul_comm w h
      have hpix := copyRows_pixel w w h src dst 0 0 h (k % w) (k / w) hsrc
        (by rw [hdst]) (by omega) (by omega) hcol hrow
      simp only [Nat.zero_add, Nat.zero_mul, Nat.add_zero, Nat.sub_zero] at hpix
      rw [if_pos ⟨Nat.zero_le _, by omega, Nat.zero_le _, by omega⟩] at hpix
      rw [Nat.mod_add_div'] at hpix
      exact hpix
    · rw [List.getElem?_eq_none (by omega), List.getElem?_eq_none (by omega)]

/-- Claim C5: for a single tile with nonzero scales whose bands satisfy
the length invariant, merge returns a dataset equal to the tile by the
defined equality: same dimensions, scales, UTM pose, dataset metadata and
band contents. -/
theorem c5_merge_single (t : gdal) (nd : ℚ) (hsx : t.get_scale_x ≠ 0)
    (hsy : t.get_scale_y ≠ 0) (hb : ∀ b ∈ t.bands, b.length = t.width * t.height) :
    ∃ res, merge [t] nd = .ok res ∧ gdal_eq res t = true := by
  have hchk : merge_check t [t] = true := merge_check_refl t
  obtain ⟨hulx, huly, hsx2, hsy2, hstart⟩ := merge_single_vals t hsx hsy
  refine ⟨{ merge_base t [t] nd with
    bands := List.foldl (merge_step t [t]) (merge_base t [t] nd).bands [t] }, ?_, ?_⟩
  · simp only [merge, hchk, if_true]
  have hbase := merge_base_fields t [t] nd
  unfold gdal_eq
  rw [decide_eq_true_eq]
  refine ⟨?_, ?_, ?_, ?_, ?_, ?_, ?_, ?_⟩
  · show (merge_base t [t] nd).width = t.get_width
    rw [hbase.1, hsx2]
  · show (merge_base t [t] nd).height = t.get_height
    rw [hbase.2.1, hsy2]
  · exact hbase.2.2.1
  · exact hbase.2.2.2.1
  · show (merge_base t [t] nd).get_utm_pose_x = t.get_utm_pose_x
    rw [hbase.2.2.2.2.1, hulx]
  · show (merge_base t [t] nd).get_utm_pose_y = t.get_utm_pose_y
    rw [hbase.2.2.2.2.2.1, huly]
  · exact hbase.2.2.2.2.2.2.1
  · show ([t].foldl (merge_step t [t]) (merge_base t [t] nd).bands) = t.bands
    rw [List.foldl_cons, List.foldl_nil]
    unfold merge_step
    rw [hbase.2.2.2.2.2.2.2, hstart, hsx2, hsy2]
    apply List.ext_getElem?
    intro i
    rw [List.getElem?_mapIdx]
    by_cases hi : i < t.bands.length
    · rw [List.getElem?_replicate_of_lt hi, Option.map_some']
      have hgetD : t.bands.getD i [] = t.bands[i] := by
        rw [List.getD_eq_getElem?_getD, List.getElem?_eq_getElem hi]
        rfl
      rw [List.getElem?_eq_getElem hi]
      congr 1
      rw [hgetD]
      exact copyRows_full t.get_width t.get_height t.bands[i]
        (List.replicate (t.get_width * t.get_height) nd)
        (hb t.bands[i] (List.getElem_mem hi)) (by simp)
    · rw [List.getElem?_replicate, if_neg (by omega), Option.map_none',
        List.getElem?_eq_none (by omega)]

-- Claim C5, witness: merging the single tile wA (scales (1, -1), one
-- 2 x 1 band) reproduces wA under the dataset equality.
unseal Rat.add Rat.mul Rat.inv Rat.sub in
theorem c5_witness : gdal_eq ((merge [wA] 7).toOption.getD gdal_empty) wA = true := by
  obtain ⟨res, hok, heq⟩ := c5_merge_single wA 7 (by decide) (by decide) (by decide)
  rw [hok]
  exact heq

/-! Claim C3: the copy loop of merge.  Every tile is copied band by band,
row by row, at the integer offsets floor((pose - envelope)/scale + 0.1),
tiles in input order overwrite earlier tiles on overlap, and pixels no
tile covers keep the no_data fill.  The hypotheses fix the north-up
orientation (scale_x positive, scale_y negative) under which the C++ copy
stays inside the allocated output; other sign combinations let the loop
compute offsets whose size_t conversion lands outside the output buffer,
which is undefined behaviour in the C++. -/

/-- Integer floor form of the output width under a positive scale_x: the
size_t width is floor(Dx + 1/2) + width, with Dx the nonnegative envelope
ratio. -/
theorem merge_sx_form (f0 : gdal) (rest : List gdal) (hsx : 0 < f0.get_scale_x) :
    0 ≤ (merge_max_x f0 (f0 :: rest) - merge_ulx f0 (f0 :: rest)) / f0.get_scale_x ∧
    (merge_sx f0 (f0 :: rest) : ℤ) =
      ⌊(merge_max_x f0 (f0 :: rest) - merge_ulx f0 (f0 :: rest)) / f0.get_scale_x + 1/2⌋ +
        f0.get_width := by
  have hle : merge_ulx f0 (f0 :: rest) ≤ merge_max_x f0 (f0 :: rest) := by
    have h1 := (merge_ulx_least f0 rest).2 f0 (List.mem_cons_self f0 rest)
    have h2 := (merge_max_x_greatest f0 rest).2 f0 (List.mem_cons_self f0 rest)
    linarith
  have hD : 0 ≤ (merge_max_x f0 (f0 :: rest) - merge_ulx f0 (f0 :: rest)) / f0.get_scale_x :=
    div_nonneg (by linarith) (le_of_lt hsx)
  refine ⟨hD, ?_⟩
  unfold merge_sx
  have harg : (merge_max_x f0 (f0 :: rest) + f0.get_scale_x * f0.get_width -
      merge_ulx f0 (f0 :: rest)) / f0.get_scale_x =
      (merge_max_x f0 (f0 :: rest) - merge_ulx f0 (f0 :: rest)) / f0.get_scale_x +
        (f0.get_width : ℚ) := by
    field_simp
    ring
  rw [harg]
  have hsplit : (merge_max_x f0 (f0 :: rest) - merge_ulx f0 (f0 :: rest)) / f0.get_scale_x +
      (f0.get_width : ℚ) + 1/2 =
      ((merge_max_x f0 (f0 :: rest) - merge_ulx f0 (f0 :: rest)) / f0.get_scale_x + 1/2) +
        (f0.get_width : ℕ) := by
    ring
  rw [hsplit, Int.floor_add_nat]
  have h0 : 0 ≤ ⌊(merge_max_x f0 (f0 :: rest) - merge_ulx f0 (f0 :: rest)) /
      f0.get_scale_x + 1/2⌋ := Int.floor_nonneg.mpr (by linarith)
  rw [Int.toNat_of_nonneg (by omega)]

/-- Integer floor form of the output height under a negative scale_y. -/
theorem merge_sy_form (f0 : gdal) (rest : List gdal) (hsy : f0.get_scale_y < 0) :
    0 ≤ (merge_min_y f0 (f0 :: rest) - merge_uly f0 (f0 :: rest)) / f0.get_scale_y ∧
    (merge_sy f0 (f0 :: rest) : ℤ) =
      ⌊(merge_min_y f0 (f0 :: rest) - merge_uly f0 (f0 :: rest)) / f0.get_scale_y + 1/2⌋ +
        f0.get_height := by
  have hle : merge_min_y f0 (f0 :: rest) ≤ merge_uly f0 (f0 :: rest) := by
    have h1 := (merge_min_y_least f0 rest).2 f0 (List.mem_cons_self f0 rest)
    have h2 := (merge_uly_greatest f0 rest).2 f0 (List.mem_cons_self f0 rest)
    linarith
  have hD : 0 ≤ (merge_min_y f0 (f0 :: rest) - merge_uly f0 (f0 :: rest)) / f0.get_scale_y :=
    div_nonneg_of_nonpos (by linarith) (le_of_lt hsy)
  have hne : f0.get_scale_y ≠ 0 := ne_of_lt hsy
  refine ⟨hD, ?_⟩
  unfold merge_sy
  have harg : (merge_min_y f0 (f0 :: rest) + f0.get_scale_y * f0.get_height -
      merge_uly f0 (f0 :: rest)) / f0.get_scale_y =
      (merge_min_y f0 (f0 :: rest) - merge_uly f0 (f0 :: rest)) / f0.get_scale_y +
        (f0.get_height : ℚ) := by
    field_simp
    ring
  rw [harg]
  have hsplit : (merge_min_y f0 (f0 :: rest) - merge_uly f0 (f0 :: rest)) / f0.get_scale_y +
      (f0.get_height : ℚ) + 1/2 =
      ((merge_min_y f0 (f0 :: rest) - merge_uly f0 (f0 :: rest)) / f0.get_scale_y + 1/2) +
        (f0.get_height : ℕ) := by
    ring
  rw [hsplit, Int.floor_add_nat]
  have h0 : 0 ≤ ⌊(merge_min_y f0 (f0 :: rest) - merge_uly f0 (f0 :: rest)) /
      f0.get_scale_y + 1/2⌋ := Int.floor_nonneg.mpr (by linarith)
  rw [Int.toNat_of_nonneg (by omega)]

/-- Under the north-up orientation, every tile offset is nonnegative and
the tile window fits inside the output grid. -/
theorem merge_offsets_bounds (f0 : gdal) (rest : List gdal)
    (hsx : 0 < f0.get_scale_x) (hsy : f0.get_scale_y < 0)
    (f : gdal) (hf : f ∈ f0 :: rest) :
    0 ≤ merge_xoff f0 (f0 :: rest) f ∧
    merge_xoff f0 (f0 :: rest) f + f0.get_width ≤ (merge_sx f0 (f0 :: rest) : ℤ) ∧
    0 ≤ merge_yoff f0 (f0 :: rest) f ∧
    merge_yoff f0 (f0 :: rest) f + f0.get_height ≤ (merge_sy f0 (f0 :: rest) : ℤ) := by
  obtain ⟨hDx, hSX⟩ := merge_sx_form f0 rest hsx
  obtain ⟨hDy, hSY⟩ := merge_sy_form f0 rest hsy
  have hxle : merge_ulx f0 (f0 :: rest) ≤ f.get_utm_pose_x :=
    (merge_ulx_least f0 rest).2 f hf
  have hxge : f.get_utm_pose_x ≤ merge_max_x f0 (f0 :: rest) :=
    (merge_max_x_greatest f0 rest).2 f hf
  have hyle : merge_min_y f0 (f0 :: rest) ≤ f.get_utm_pose_y :=
    (merge_min_y_least f0 rest).2 f hf
  have hyge : f.get_utm_pose_y ≤ merge_uly f0 (f0 :: rest) :=
    (merge_uly_greatest f0 rest).2 f hf
  have hdx0 : 0 ≤ (f.get_utm_pose_x - merge_ulx f0 (f0 :: rest)) / f0.get_scale_x :=
    div_nonneg (by linarith) (le_of_lt hsx)
  have hdxD : (f.get_utm_pose_x - merge_ulx f0 (f0 :: rest)) / f0.get_scale_x ≤
      (merge_max_x f0 (f0 :: rest) - merge_ulx f0 (f0 :: rest)) / f0.get_scale_x :=
    (div_le_div_iff_of_pos_right hsx).mpr (by linarith)
  have hdy0 : 0 ≤ (f.get_utm_pose_y - merge_uly f0 (f0 :: rest)) / f0.get_scale_y :=
    div_nonneg_of_nonpos (by linarith) (le_of_lt hsy)
  have hdyD : (f.get_utm_pose_y - merge_uly f0 (f0 :: rest)) / f0.get_scale_y ≤
      (merge_min_y f0 (f0 :: rest) - merge_uly f0 (f0 :: rest)) / f0.get_scale_y :=
    (div_le_div_right_of_neg hsy).mpr (by linarith)
  have hx0 : 0 ≤ merge_xoff f0 (f0 :: rest) f := by
    unfold merge_xoff
    exact Int.floor_nonneg.mpr (by linarith)
  have hy0 : 0 ≤ merge_yoff f0 (f0 :: rest) f := by
    unfold merge_yoff
    exact Int.floor_nonneg.mpr (by linarith)
  have hxmono : merge_xoff f0 (f0 :: rest) f ≤
      ⌊(merge_max_x f0 (f0 :: rest) - merge_ulx f0 (f0 :: rest)) / f0.get_scale_x + 1/2⌋ := by
    unfold merge_xoff
    exact Int.floor_le_floor (by linarith)
  have hymono : merge_yoff f0 (f0 :: rest) f ≤
      ⌊(merge_min_y f0 (f0 :: rest) - merge_uly f0 (f0 :: rest)) / f0.get_scale_y + 1/2⌋ := by
    unfold merge_yoff
    exact Int.floor_le_floor (by linarith)
  exact ⟨hx0, by omega, hy0, by omega⟩

/-- One tile of the copy loop, seen at a single mosaic pixel: inside the
tile window the tile sample lands there, outside it the previous value
stays. -/
theorem merge_step_pixel (f0 : gdal) (rest : List gdal) (f : gdal) (hf : f ∈ f0 :: rest)
    (hsx : 0 < f0.get_scale_x) (hsy : f0.get_scale_y < 0)
    (hfit : merge_sx f0 (f0 :: rest) * merge_sy f0 (f0 :: rest) < usizeMod)
    (src dst : List ℚ) (hsrc : src.length = f0.get_width * f0.get_height)
    (hdst : dst.length = merge_sx f0 (f0 :: rest) * merge_sy f0 (f0 :: rest))
    (col row : ℕ) (hcol : col < merge_sx f0 (f0 :: rest))
    (hrow : row < merge_sy f0 (f0 :: rest)) :
    (copyRows f0.get_width (merge_sx f0 (f0 :: rest)) src dst
        (merge_start f0 (f0 :: rest) f))[col + row * merge_sx f0 (f0 :: rest)]? =
      if covers f0 (f0 :: rest) f col row
      then src[(((col : ℤ) - merge_xoff f0 (f0 :: rest) f) +
        ((row : ℤ) - merge_yoff f0 (f0 :: rest) f) * f0.get_width).toNat]?
      else dst[col + row * merge_sx f0 (f0 :: rest)]? := by
  obtain ⟨hx0, hxw, hy0, hyh⟩ := merge_offsets_bounds f0 rest hsx hsy f hf
  by_cases hw : f0.get_width = 0
  · have hsrc0 : src = [] := List.length_eq_zero.mp (by rw [hsrc, hw]; ring)
    rw [copyRows_eq, if_pos (Or.inr hsrc0)]
    rw [if_neg ?hnc]
    case hnc =>
      rintro ⟨h1, h2, _, _⟩
      rw [hw] at h2
      omega
  by_cases hh : f0.get_height = 0
  · have hsrc0 : src = [] := List.length_eq_zero.mp (by rw [hsrc, hh]; ring)
    rw [copyRows_eq, if_pos (Or.inr hsrc0)]
    rw [if_neg ?hnc2]
    case hnc2 =>
      rintro ⟨_, _, h3, h4⟩
      rw [hh] at h4
      omega
  · have hwpos : 0 < f0.get_width := Nat.pos_of_ne_zero hw
    have hhpos : 0 < f0.get_height := Nat.pos_of_ne_zero hh
    have hxwn : (merge_xoff f0 (f0 :: rest) f).toNat + f0.get_width ≤
        merge_sx f0 (f0 :: rest) := by omega
    have hyhn : (merge_yoff f0 (f0 :: rest) f).toNat + f0.get_height ≤
        merge_sy f0 (f0 :: rest) := by omega
    have hstart : merge_start f0 (f0 :: rest) f =
        (merge_xoff f0 (f0 :: rest) f).toNat +
          (merge_yoff f0 (f0 :: rest) f).toNat * merge_sx f0 (f0 :: rest) := by
      unfold merge_start to_size_t
      have hval : merge_xoff f0 (f0 :: rest) f +
          merge_yoff f0 (f0 :: rest) f * (merge_sx f0 (f0 :: rest) : ℤ) =
          (((merge_xoff f0 (f0 :: rest) f).toNat +
            (merge_yoff f0 (f0 :: rest) f).toNat * merge_sx f0 (f0 :: rest) : ℕ) : ℤ) := by
        push_cast [Int.toNat_of_nonneg hx0, Int.toNat_of_nonneg hy0]
        ring
      rw [hval]
      have hlt : (merge_xoff f0 (f0 :: rest) f).toNat +
          (merge_yoff f0 (f0 :: rest) f).toNat * merge_sx f0 (f0 :: rest) <
          merge_sx f0 (f0 :: rest) * merge_sy f0 (f0 :: rest) :=
        pix_lt (by omega) (by omega)
      rw [Int.emod_eq_of_lt (by positivity) (by exact_mod_cast by omega)]
      exact Int.toNat_natCast _
    rw [hstart]
    rw [copyRows_pixel f0.get_width (merge_sx f0 (f0 :: rest)) f0.get_height src dst
      (merge_xoff f0 (f0 :: rest) f).toNat (merge_yoff f0 (f0 :: rest) f).toNat
      (merge_sy f0 (f0 :: rest)) col row hsrc hdst hxwn hyhn hcol hrow]
    by_cases hcov : covers f0 (f0 :: rest) f col row
    · obtain ⟨hc1, hc2, hc3, hc4⟩ := hcov
      rw [if_pos (by omega), if_pos ⟨hc1, hc2, hc3, hc4⟩]
      have hca : (col : ℤ) - merge_xoff f0 (f0 :: rest) f =
          ((col - (merge_xoff f0 (f0 :: rest) f).toNat : ℕ) : ℤ) := by omega
      have hrb : (row : ℤ) - merge_yoff f0 (f0 :: rest) f =
          ((row - (merge_yoff f0 (f0 :: rest) f).toNat : ℕ) : ℤ) := by omega
      rw [hca, hrb]
      rw [show (((col - (merge_xoff f0 (f0 :: rest) f).toNat : ℕ) : ℤ) +
          ((row - (merge_yoff f0 (f0 :: rest) f).toNat : ℕ) : ℤ) * (f0.get_width : ℕ)) =
          (((col - (merge_xoff f0 (f0 :: rest) f).toNat) +
            (row - (merge_yoff f0 (f0 :: rest) f).toNat) * f0.get_width : ℕ) : ℤ) by
        push_cast
        ring]
      rw [Int.toNat_natCast]
    · rw [if_neg ?hn1, if_neg hcov]
      case hn1 =>
        rintro ⟨h1, h2, h3, h4⟩
        exact hcov ⟨by omega, by omega, by omega, by omega⟩

/-- Copy loop invariant: folding the remaining tiles fs over an
accumulator whose pixels show the last-writer value of the tiles already
done extends the last-writer characterization to done ++ fs. -/
theorem merge_fold_pixel (f0 : gdal) (rest : List gdal) (nd : ℚ)
    (hsx : 0 < f0.get_scale_x) (hsy : f0.get_scale_y < 0)
    (hfit : merge_sx f0 (f0 :: rest) * merge_sy f0 (f0 :: rest) < usizeMod)
    (hbands : ∀ f ∈ f0 :: rest, ∀ b ∈ f.bands, b.length = f0.get_width * f0.get_height)
    (hcnt : ∀ f ∈ f0 :: rest, f.bands.length = f0.bands.length) :
    ∀ (fs done : List gdal) (acc : List (List ℚ)),
      f0 :: rest = done ++ fs →
      acc.length = f0.bands.length →
      (∀ b ∈ acc, b.length = merge_sx f0 (f0 :: rest) * merge_sy f0 (f0 :: rest)) →
      (∀ band, band < f0.bands.length → ∀ col row : ℕ,
        col < merge_sx f0 (f0 :: rest) → row < merge_sy f0 (f0 :: rest) →
        (acc.getD band []).getD (col + row * merge_sx f0 (f0 :: rest)) 0 =
          match (done.filter (coversB f0 (f0 :: rest) col row)).getLast? with
          | some f => tileSample f0 (f0 :: rest) f band col row
          | none => nd) →
      (∀ band, band < f0.bands.length → ∀ col row : ℕ,
        col < merge_sx f0 (f0 :: rest) → row < merge_sy f0 (f0 :: rest) →
        ((fs.foldl (merge_step f0 (f0 :: rest)) acc).getD band []).getD
            (col + row * merge_sx f0 (f0 :: rest)) 0 =
          match ((done ++ fs).filter (coversB f0 (f0 :: rest) col row)).getLast? with
          | some f => tileSample f0 (f0 :: rest) f band col row
          | none => nd) := by
  intro fs
  induction fs with
  | nil =>
    intro done acc heq hlen hblen hchar
    intro band hband col row hcol hrow
    rw [List.foldl_nil, List.append_nil]
    exact hchar band hband col row hcol hrow
  | cons f fs ih =>
    intro done acc heq hlen hblen hchar
    have hfmem : f ∈ f0 :: rest := by
      rw [heq]
      simp
    have hstep_len : (merge_step f0 (f0 :: rest) acc f).length = f0.bands.length := by
      unfold merge_step
      rw [List.length_mapIdx]
      exact hlen
    have hstep_get : ∀ band, band < acc.length →
        (merge_step f0 (f0 :: rest) acc f).getD band [] =
          copyRows f0.get_width (merge_sx f0 (f0 :: rest)) (f.bands.getD band [])
            (acc.getD band []) (merge_start f0 (f0 :: rest) f) := by
      intro band hb
      unfold merge_step
      rw [List.getD_eq_getElem?_getD, List.getElem?_mapIdx, List.getElem?_eq_getElem hb]
      simp only [Option.map_some', Option.getD_some]
      congr 1
      rw [List.getD_eq_getElem?_getD, List.getElem?_eq_getElem hb]
      rfl
    have hsrc_len : ∀ band, band < f0.bands.length →
        (f.bands.getD band []).length = f0.get_width * f0.get_height := by
      intro band hb
      have hbf : band < f.bands.length := by
        rw [hcnt f hfmem]
        omega
      have hget : f.bands.getD band [] = f.bands[band] := by
        rw [List.getD_eq_getElem?_getD, List.getElem?_eq_getElem hbf]
        rfl
      rw [hget]
      exact hbands f hfmem _ (List.getElem_mem hbf)
    have hdst_len : ∀ band, band < acc.length → (acc.getD band []).length =
        merge_sx f0 (f0 :: rest) * merge_sy f0 (f0 :: rest) := by
      intro band hb
      have hget : acc.getD band [] = acc[band] := by
        rw [List.getD_eq_getElem?_getD, List.getElem?_eq_getElem hb]
        rfl
      rw [hget]
      exact hblen acc[band] (List.getElem_mem hb)
    have hstep_blen : ∀ b ∈ merge_step f0 (f0 :: rest) acc f,
        b.length = merge_sx f0 (f0 :: rest) * merge_sy f0 (f0 :: rest) := by
      intro b hb
      obtain ⟨i, hi⟩ := List.mem_iff_getElem?.mp hb
      have hilt : i < acc.length := by
        by_contra hcon
        push_neg at hcon
        rw [List.getElem?_eq_none (by rw [hstep_len]; omega)] at hi
        exact absurd hi (by simp)
      have hbval : b = copyRows f0.get_width (merge_sx f0 (f0 :: rest))
          (f.bands.getD i []) (acc.getD i []) (merge_start f0 (f0 :: rest) f) := by
        have h1 := hstep_get i hilt
        rw [List.getD_eq_getElem?_getD, hi] at h1
        exact h1
      subst hbval
      by_cases hbf : i < f.bands.length
      · rw [copyRows_length f0.get_width (merge_sx f0 (f0 :: rest)) f0.get_height _ _ _
          (hsrc_len i (by omega))]
        exact hdst_len i hilt
      · have hnil : f.bands.getD i [] = [] := by
          rw [List.getD_eq_getElem?_getD, List.getElem?_eq_none (by omega)]
          rfl
        rw [hnil]
        rw [copyRows_length f0.get_width (merge_sx f0 (f0 :: rest)) 0 _ _ _ (by simp)]
        exact hdst_len i hilt
    have hchar2 : ∀ band, band < f0.bands.length → ∀ col row : ℕ,
        col < merge_sx f0 (f0 :: rest) → row < merge_sy f0 (f0 :: rest) →
        ((merge_step f0 (f0 :: rest) acc f).getD band []).getD
            (col + row * merge_sx f0 (f0 :: rest)) 0 =
          match ((done ++ [f]).filter (coversB f0 (f0 :: rest) col row)).getLast? with
          | some g => tileSample f0 (f0 :: rest) g band col row
          | none => nd := by
      intro band hband col row hcol hrow
      have hbandacc : band < acc.length := by omega
      rw [hstep_get band hbandacc]
      rw [List.getD_eq_getElem?_getD]
      rw [merge_step_pixel f0 rest f hfmem hsx hsy hfit _ _ (hsrc_len band hband)
        (hdst_len band hbandacc) col row hcol hrow]
      rw [List.filter_append]
      by_cases hcov : covers f0 (f0 :: rest) f col row
      · have hfil : [f].filter (coversB f0 (f0 :: rest) col row) = [f] := by
          simp [coversB, hcov]
        rw [hfil, List.getLast?_concat, if_pos hcov]
        have hred : (match (some f : Option gdal) with
            | some g => tileSample f0 (f0 :: rest) g band col row
            | none => nd) = tileSample f0 (f0 :: rest) f band col row := rfl
        rw [hred]
        unfold tileSample
        simp only [List.getD_eq_getElem?_getD]
      · have hfil : [f].filter (coversB f0 (f0 :: rest) col row) = [] := by
          simp [coversB, hcov]
        rw [hfil, List.append_nil, if_neg hcov]
        rw [← List.getD_eq_getElem?_getD]
        exact hchar band hband col row hcol hrow
    have hres := ih (done ++ [f]) (merge_step f0 (f0 :: rest) acc f)
      (by rw [heq]; simp) hstep_len hstep_blen hchar2
    intro band hband col row hcol hrow
    rw [List.foldl_cons]
    have hgoal := hres band hband col row hcol hrow
    rwa [show (done ++ [f]) ++ fs = done ++ f :: fs by simp] at hgoal

/-- Claim C3: for an accepted tile list merged under the north-up
orientation (scale_x positive, scale_y negative; other orientations make
the C++ copy loop address memory out of the allocated output, undefined
behaviour), with the band-length invariant and an output that fits in the
size_t range: every mosaic pixel of every band holds the sample of the
last tile in input order whose offset window (xoff, yoff) as computed by
the claim formulas covers the pixel - tiles are placed band by band, row
by row at linear index xoff + yoff * out_w advancing by out_w per row,
later tiles overwriting earlier ones on overlap - and every pixel covered
by no tile holds no_data. -/
theorem c3_copy (f0 : gdal) (rest : List gdal) (nd : ℚ) (res : gdal)
    (hok : merge (f0 :: rest) nd = .ok res)
    (hsx : 0 < f0.get_scale_x) (hsy : f0.get_scale_y < 0)
    (hbands : ∀ f ∈ f0 :: rest, ∀ b ∈ f.bands, b.length = f0.get_width * f0.get_height)
    (hfit : merge_sx f0 (f0 :: rest) * merge_sy f0 (f0 :: rest) < usizeMod) :
    ∀ band, band < f0.bands.length → ∀ col row : ℕ,
      col < merge_sx f0 (f0 :: rest) → row < merge_sy f0 (f0 :: rest) →
      (res.bands.getD band []).getD (col + row * merge_sx f0 (f0 :: rest)) 0 =
        lastCoverValue f0 (f0 :: rest) nd band col row := by
  obtain ⟨hc, hres⟩ := merge_eq_ok f0 rest nd res hok
  have hcnt : ∀ f ∈ f0 :: rest, f.bands.length = f0.bands.length := by
    intro f hf
    have hmm := (merge_check_iff f0 (f0 :: rest)).mp hc f hf
    unfold mismatch at hmm
    push_neg at hmm
    exact hmm.2.2.2.2.symm
  have hbase := merge_base_fields f0 (f0 :: rest) nd
  have hlen : (merge_base f0 (f0 :: rest) nd).bands.length = f0.bands.length := by
    rw [hbase.2.2.2.2.2.2.2]
    simp
  have hblen : ∀ b ∈ (merge_base f0 (f0 :: rest) nd).bands,
      b.length = merge_sx f0 (f0 :: rest) * merge_sy f0 (f0 :: rest) := by
    intro b hb
    rw [hbase.2.2.2.2.2.2.2] at hb
    rw [List.eq_of_mem_replicate hb]
    simp
  have hchar0 : ∀ band, band < f0.bands.length → ∀ col row : ℕ,
      col < merge_sx f0 (f0 :: rest) → row < merge_sy f0 (f0 :: rest) →
      ((merge_base f0 (f0 :: rest) nd).bands.getD band []).getD
          (col + row * merge_sx f0 (f0 :: rest)) 0 =
        match (([] : List gdal).filter (coversB f0 (f0 :: rest) col row)).getLast? with
        | some g => tileSample f0 (f0 :: rest) g band col row
        | none => nd := by
    intro band hband col row hcol hrow
    rw [hbase.2.2.2.2.2.2.2]
    have houter : (List.replicate f0.bands.length
        (List.replicate (merge_sx f0 (f0 :: rest) * merge_sy f0 (f0 :: rest)) nd)).getD
          band [] =
        List.replicate (merge_sx f0 (f0 :: rest) * merge_sy f0 (f0 :: rest)) nd := by
      rw [List.getD_eq_getElem?_getD, List.getElem?_replicate_of_lt hband]
      rfl
    rw [houter, List.getD_eq_getElem?_getD,
      List.getElem?_replicate_of_lt (pix_lt hcol hrow)]
    rfl
  have happ := merge_fold_pixel f0 rest nd hsx hsy hfit hbands hcnt (f0 :: rest) []
    (merge_base f0 (f0 :: rest) nd).bands rfl hlen hblen hchar0
  intro band hband col row hcol hrow
  subst hres
  exact happ band hband col row hcol hrow

-- Claim C3, witness: merging wA and wOv (overlapping by one pixel), the
-- overlap pixel (col 1, row 0) holds the later tile sample 20; merging wA
-- and wGap (disjoint with a gap), the uncovered pixel (col 2, row 0)
-- holds the no_data fill 5.
unseal Rat.add Rat.mul Rat.inv Rat.sub in
theorem c3_witness :
    (((merge [wA, wOv] 5).toOption.getD gdal_empty).bands.getD 0 []).getD
        (1 + 0 * merge_sx wA [wA, wOv]) 0 = 20 ∧
    (((merge [wA, wGap] 5).toOption.getD gdal_empty).bands.getD 0 []).getD
        (2 + 0 * merge_sx wA [wA, wGap]) 0 = 5 := by
  constructor
  · exact (c3_copy wA [wOv] 5 ((merge [wA, wOv] 5).toOption.getD gdal_empty)
      (by decide) (by decide) (by decide) (by decide) (by decide)
      0 (by decide) 1 0 (by decide) (by decide)).trans (by decide)
  · exact (c3_copy wA [wGap] 5 ((merge [wA, wGap] 5).toOption.getD gdal_empty)
      (by decide) (by decide) (by decide) (by decide) (by decide)
      0 (by decide) 2 0 (by decide) (by decide)).trans (by decide)

end Gdalwrap
